import Mathlib

/-!
# mind.c: a Mastermind-like guessing game

A shallow embedding of `src/mind.c` and theorems about its feedback routine
(`print_test`), its line editor (`get_choice`, `choice_back`), the answer generator
(`mkanswer`), the option and terminal handling (`parse_args`, `get_colors`, `init_term`,
`exit_term`) and the game loop of `main`.

Conventions of the embedding.

* A C `char` array reached through a pointer is a function from the index (an `Int`
  offset from the pointer) to the stored character value (`Int`).
* Characters coming from `getchar` are `Int`s: a byte `0..255`, or `EOF = -1`.
* Standard input is a function `Nat → Int`: the result of the k-th call of `getchar`.
  A finite input is a stream that is `EOF` from some index on.
* Standard output is the list of bytes written so far.
* Loops that need not terminate take a fuel argument and return `none` when it is used up.
-/

namespace Mind

/-! ## Constants and types -/

/-- The macro `NCHARS`, defined as 4: the number of symbols of a guess and of the answer. -/
def NCHARS : Nat := 4

/-- The value of `EOF`. -/
def EOF : Int := -1

/-- A `char` buffer addressed from its base pointer. -/
abbrev Buf := Int → Int

/-- The three fields of `struct colors`; a value of `Tag` says which field the pointer
`match` of `print_test` was loaded from. -/
inductive Tag where
  | red
  | yellow
  | green
  deriving DecidableEq, Repr

/-- The type `struct colors`: the three strings of a theme. -/
structure colors where
  red : String
  yellow : String
  green : String
  deriving DecidableEq, Repr

/-- Field selection `colors->red`, `colors->yellow`, `colors->green`. -/
def colors.get (c : colors) : Tag → String
  | Tag.red => c.red
  | Tag.yellow => c.yellow
  | Tag.green => c.green

/-- The theme `colors_mono`. -/
def colors_mono : colors := { red := "R", yellow := "Y", green := "G" }

/-! ## print_test -/

/-- The inner loop of `print_test`,
`for (j = 0; j < NCHARS; j++) { if (j == i) continue; if (choice[i] == answer[j]) match = colors->yellow; }`,
started with the current value `m` of `match`. -/
def print_test_inner (choice answer : Buf) (i : Nat) (m : Tag) : Tag :=
  (List.range NCHARS).foldl
    (fun m j => if j = i then m else if choice (i : Int) = answer (j : Int) then Tag.yellow else m) m

/-- The local state of `print_test`: the counter `right` and what has been printed, recorded
as the sequence of values `match` had at each `printf("%s ", match)`. -/
structure TestState where
  right : Int
  tags : List Tag

/-- One iteration of the outer loop of `print_test`, for index `i`. -/
def print_test_body (choice answer : Buf) (s : TestState) (i : Nat) : TestState :=
  if choice (i : Int) = answer (i : Int) then
    { right := s.right + 1, tags := s.tags ++ [Tag.green] }
  else
    { right := s.right, tags := s.tags ++ [print_test_inner choice answer i Tag.red] }

/-- The outer loop of `print_test`, `for (i = 0; i < NCHARS; i++)`, from `right = 0`. -/
def print_test_loop (choice answer : Buf) : TestState :=
  (List.range NCHARS).foldl (print_test_body choice answer) { right := 0, tags := [] }

/-- The sequence of tags `print_test` prints for the guess `choice` against `answer`. -/
def print_test_tags (choice answer : Buf) : List Tag :=
  (print_test_loop choice answer).tags

/-- The return value of `print_test`: `right == NCHARS`, as a C truth value. -/
def print_test (choice answer : Buf) : Int :=
  if (print_test_loop choice answer).right = (NCHARS : Int) then 1 else 0

/-- The text `print_test` writes: a space, each tag rendered through the theme and followed
by a space, and a newline. -/
def print_test_output (c : colors) (choice answer : Buf) : String :=
  " " ++ String.join ((print_test_tags choice answer).map (fun t => c.get t ++ " ")) ++ "\n"

/-- The value of `match` when iteration `i` of the outer loop of `print_test` reaches its
`printf`, closed form of `print_test_body` (see `print_test_tags_eq`). -/
def tagAt (choice answer : Buf) (i : Nat) : Tag :=
  if choice (i : Int) = answer (i : Int) then Tag.green
  else print_test_inner choice answer i Tag.red

/-- A buffer holding the given characters from index 0 on (and 0 elsewhere). -/
def bufOf (l : List Int) : Buf := fun i => if 0 ≤ i then l.getD i.toNat 0 else 0

/-! ## is_valid, choice_back, get_choice -/

/-- Conversion of an `int` to `char`: 8 bits, signed (as on the usual targets). It is the
identity on the ASCII range, which is all the program relies on. -/
def toChar (c : Int) : Int := (c + 128) % 256 - 128

/-- The function `is_valid`: `c >= 48 && c <= 57`, the characters 0 to 9. -/
def is_valid (c : Int) : Bool := decide (48 ≤ c ∧ c ≤ 57)

/-- The function `iscntrl` of the C library in the C locale (the program never calls `setlocale`):
the codes 0..31 and 127. -/
def iscntrl (ch : Int) : Bool := decide ((0 ≤ ch ∧ ch ≤ 31) ∨ ch = 127)

/-- The byte `putchar(ch)` writes: `ch` converted to `unsigned char`. -/
def putchar (ch : Int) (out : List Int) : List Int := out ++ [ch % 256]

/-- The function `choice_back(n)`: `n` times two backspace characters (octal 010), then `ESC [ K`. -/
def choice_back (n : Int) (out : List Int) : List Int :=
  (List.range n.toNat).foldl (fun o _ => putchar 8 (putchar 8 o)) out ++ [27, 91, 75]

/-- The state of `get_choice`: the buffer behind `choice`, the counter `pos`, and the bytes
written to standard output. -/
structure Editor where
  choice : Buf
  pos : Int
  out : List Int

/-- One iteration of the `while (1)` loop of `get_choice` on the character `ch` that
`getchar` returned. The second component says whether the iteration left the loop
through `break`. -/
def get_choice_step (ch : Int) (e : Editor) : Editor × Bool :=
  if is_valid (toChar ch) = true ∧ e.pos < (NCHARS : Int) then
    ({ choice := Function.update e.choice e.pos (toChar ch),
       pos := e.pos + 1,
       out := putchar 32 (putchar ch e.out) }, false)
  else if ch = 10 ∨ ch = 13 then
    (e, decide (e.pos = (NCHARS : Int)))
  else if iscntrl ch = true then
    if ch = 127 ∧ e.pos ≠ 0 then
      ({ e with out := choice_back 1 e.out, pos := e.pos - 1 }, false)
    else if ch = 21 ∧ e.pos ≠ 0 then
      ({ e with out := choice_back e.pos e.out, pos := 0 }, false)
    else (e, false)
  else (e, false)

/-- The `while (1)` loop of `get_choice`, reading `stdin` from index `rd` on. It returns the
final state and the index of the next unread character, or `none` when the fuel runs out. -/
def get_choice_loop (stdin : Nat → Int) : Nat → Nat → Editor → Option (Editor × Nat)
  | 0, _, _ => none
  | fuel + 1, rd, e =>
    let r := get_choice_step (stdin rd) e
    if r.2 = true then some (r.1, rd + 1) else get_choice_loop stdin fuel (rd + 1) r.1

/-- The function `get_choice(choice)`: the loop started with `pos = 0` on the caller's buffer. -/
def get_choice (stdin : Nat → Int) (fuel rd : Nat) (choice : Buf) (out : List Int) :
    Option (Editor × Nat) :=
  get_choice_loop stdin fuel rd { choice := choice, pos := 0, out := out }

/-- The editor after the loop body has been run on each of the keystrokes `keys` in turn.
The `break` flag is dropped, so this follows the loop only on keys that do not end it. -/
def feed_keys (keys : List Int) (e : Editor) : Editor :=
  keys.foldl (fun e ch => (get_choice_step ch e).1) e

/-- An input stream holding the given characters and then `EOF` for ever. -/
def stdinOf (l : List Int) : Nat → Int := fun k => l.getD k EOF

/-! ## The terminal

The program writes bytes; what the player sees is what the terminal makes of them. The
model keeps one line and a cursor: the backspace character (8) moves the cursor one column
left, `ESC [ K` clears from the cursor to the end of the line, any other byte is written at
the cursor, which then advances. -/

/-- The terminal line, the cursor column, and how much of an escape sequence has been
received (0: none, 1: `ESC`, 2: `ESC [`). -/
structure Term where
  line : List Int
  col : Nat
  esc : Nat
  deriving DecidableEq, Repr

/-- The terminal after receiving one byte. -/
def term_byte (t : Term) (b : Int) : Term :=
  if t.esc = 1 then
    { t with esc := if b = 91 then 2 else 0 }
  else if t.esc = 2 then
    if b = 75 then { t with line := t.line.take t.col, esc := 0 } else { t with esc := 0 }
  else if b = 27 then { t with esc := 1 }
  else if b = 8 then { t with col := t.col - 1 }
  else
    { t with
      line := (t.line ++ List.replicate (t.col - t.line.length) 32).take t.col ++ [b] ++
        t.line.drop (t.col + 1),
      col := t.col + 1 }

/-- The terminal after receiving a sequence of bytes. -/
def term_run (t : Term) (bytes : List Int) : Term := bytes.foldl term_byte t

/-! ## The game loop of main -/

/-- Wrap-around of a 32-bit `int`. -/
def wrap32 (x : Int) : Int := (x + 2147483648) % 4294967296 - 2147483648

/-- What the game loop prints, as events: the prompt `printf(" %2d. ", i)`, the feedback
line of `print_test`, and the revealed answer. -/
inductive Event where
  | prompt (i : Int)
  | feedback (tags : List Tag)
  | reveal (answer : List Int)
  deriving DecidableEq, Repr

/-- The variables of the loop in `main`: `i`, `done`, the number `n` of guesses read so
far, and the output. -/
structure Game where
  i : Int
  done : Int
  n : Nat
  out : List Event
  deriving DecidableEq, Repr

/-- The loop `for (i = 1; i <= chances && !done; i++)` of `main`. The call of `get_choice`
is replaced by its result: `guesses n` is the buffer the call number `n` (from 0) leaves
behind. The result is the state at loop exit, or `none` when the fuel runs out. -/
def main_loop (answer : Buf) (chances : Int) (guesses : Nat → Buf) : Nat → Game → Option Game
  | 0, _ => none
  | fuel + 1, g =>
    if g.i ≤ chances ∧ g.done = 0 then
      main_loop answer chances guesses fuel
        { i := wrap32 (g.i + 1),
          done := print_test (guesses g.n) answer,
          n := g.n + 1,
          out := g.out ++ [Event.prompt g.i, Event.feedback (print_test_tags (guesses g.n) answer)] }
    else some g

/-- The part of `main` from `if (!chances) chances = 10;` to the end, for the parsed value
`chances` and the generated `answer`. -/
def main_game (answer : Buf) (chances : Int) (guesses : Nat → Buf) (fuel : Nat) : Option Game :=
  let chances := if chances = 0 then 10 else chances
  match main_loop answer chances guesses fuel { i := 1, done := 0, n := 0, out := [] } with
  | none => none
  | some g =>
    if g.done = 0 then
      some { g with out := g.out ++ [Event.reveal ((List.range NCHARS).map (fun (k : Nat) => answer (k : Int)))] }
    else some g

/-- What the first `n` attempts print: for attempt number `j + 1` the prompt with that
number, then the feedback on the guess read for it. -/
def attempts_output (answer : Buf) (guesses : Nat → Buf) : Nat → List Event
  | 0 => []
  | n + 1 =>
    attempts_output answer guesses n ++
      [Event.prompt ((n : Int) + 1), Event.feedback (print_test_tags (guesses n) answer)]

/-- The line that reveals the answer. -/
def reveal_event (answer : Buf) : Event :=
  Event.reveal ((List.range NCHARS).map (fun (k : Nat) => answer (k : Int)))

/-! ## Counting matches, for the comparison with a multiset-conserving score -/

/-- How many positions of the secret hold the symbol `d`. -/
def occurrences (answer : Buf) (d : Int) : Nat :=
  ((List.range NCHARS).filter (fun (j : Nat) => decide (answer (j : Int) = d))).length

/-- How many positions of the guess hold the symbol `d` and were given the tag `t`. -/
def tagged (choice : Buf) (tags : List Tag) (d : Int) (t : Tag) : Nat :=
  ((List.range NCHARS).filter
    (fun (i : Nat) => decide (choice (i : Int) = d) && decide (tags[i]? = some t))).length

/-- Multiset conservation, the property of a strict Mastermind score: no symbol gets more
Green and Yellow tags together than it has occurrences in the secret. -/
def MultisetConserving (choice answer : Buf) (tags : List Tag) : Prop :=
  ∀ d : Int, tagged choice tags d Tag.green + tagged choice tags d Tag.yellow ≤ occurrences answer d

/-! ## mkanswer -/

/-- One symbol of the answer, computed from the value `r` that `rand()` returned:
`48 + (r % (57 - 48))`, the character constants of the source written as their codes,
stored in a `char`. The operator `%` of C truncates towards zero. -/
def mkanswer_symbol (r : Int) : Int := toChar (48 + Int.tmod r (57 - 48))

/-- The function `mkanswer`, after the call of `srand`: the loop
`for (i = 0; i < NCHARS; i++) answer[i] = ...` on the array `answer`, where `rand k` is
what the call number `k` (from 0) of `rand()` returns. -/
def mkanswer (rand : Nat → Int) (answer : Buf) : Buf :=
  (List.range NCHARS).foldl
    (fun a (i : Nat) => Function.update a (i : Int) (mkanswer_symbol (rand i))) answer

/-! ## Themes, parse_args, init_term, exit_term, main -/

/-- The theme `colors_dark`. -/
def colors_dark : colors :=
  { red := "\x1b[0;31mR\x1b[m", yellow := "\x1b[0;33mY\x1b[m", green := "\x1b[0;32mG\x1b[m" }

/-- The theme `colors_light`. -/
def colors_light : colors :=
  { red := "\x1b[1;31mR\x1b[m", yellow := "\x1b[1;33mY\x1b[m", green := "\x1b[1;32mG\x1b[m" }

/-- The theme `colors_grey`. -/
def colors_grey : colors :=
  { red := "\x1b[1;30mR\x1b[m", yellow := "\x1b[0;37mY\x1b[m", green := "\x1b[1;37mG\x1b[m" }

/-- The function `get_colors` on the value of `colormode`: the theme it returns and what it
writes to `stderr`. The cases of the `switch` are the letters m (109), d (100), l (108)
and g (103). -/
def get_colors (colormode : Int) : colors × List String :=
  if colormode = 109 then (colors_mono, [])
  else if colormode = 100 then (colors_dark, [])
  else if colormode = 108 then (colors_light, [])
  else if colormode = 103 then (colors_grey, [])
  else (colors_mono, ["invalid color mode, falling back to mono\n"])

/-- The function `tolower` of the C library in the C locale. -/
def tolower (c : Int) : Int := if 65 ≤ c ∧ c ≤ 90 then c + 32 else c

/-- The type `struct termios` of the system: the four mode words and the control
characters. -/
structure termios where
  c_iflag : Nat
  c_oflag : Nat
  c_cflag : Nat
  c_lflag : Nat
  c_cc : List Nat
  deriving DecidableEq, Repr

/-- What file descriptor 0 is: a terminal with its current attributes, not a terminal
(`tcgetattr` fails with `errno = ENOTTY`), or something on which `tcgetattr` fails with
another error. -/
inductive Fd0 where
  | tty (attrs : termios)
  | notty
  | error
  deriving DecidableEq, Repr

/-- The global variables of the program with the part of the environment they interact
with: file descriptor 0, the arguments of the calls of `tcsetattr` made so far, and what
has been written to `stderr`. The pointer `colors` is `none` while it is null. -/
structure Globals where
  colormode : Int
  chances : Int
  isterm : Int
  saved_tios : termios
  colors : Option colors
  fd0 : Fd0
  tcsets : List termios
  stderr : List String
  deriving DecidableEq

/-- The globals at program start: `colormode` is the letter a (97), the other statics are
zero. -/
def Globals.initial (fd0 : Fd0) : Globals :=
  { colormode := 97, chances := 0, isterm := 0,
    saved_tios := { c_iflag := 0, c_oflag := 0, c_cflag := 0, c_lflag := 0, c_cc := [] },
    colors := none, fd0 := fd0, tcsets := [], stderr := [] }

/-- The call `tcsetattr(0, TCSANOW, &tios)`: on a terminal the attributes become `tios`,
otherwise the call fails and changes nothing. The call is recorded either way. -/
def tcsetattr (tios : termios) (g : Globals) : Globals :=
  { g with
    fd0 := match g.fd0 with
      | Fd0.tty _ => Fd0.tty tios
      | other => other,
    tcsets := g.tcsets ++ [tios] }

/-- The function `init_term`. The flag values `ICANON` and `ECHO` come from the system
header; `tios0` is the indeterminate initial content of the local variable `tios`. The
complement `~(ICANON|ECHO)` is taken in the 32 bits of `tcflag_t`. -/
def init_term (ICANON ECHO : Nat) (tios0 : termios) (g : Globals) : Globals :=
  let r : termios × Globals :=
    match g.fd0 with
    | Fd0.tty attrs => (attrs, { g with isterm := 1, saved_tios := attrs })
    | Fd0.notty => (tios0, g)
    | Fd0.error => (tios0, { g with stderr := g.stderr ++ ["tcgetaddr returned"] })
  let tios := r.1
  let g1 := r.2
  let g2 :=
    if g1.isterm ≠ 0 then
      tcsetattr { tios with c_lflag := tios.c_lflag &&& (4294967295 - (ICANON ||| ECHO)) } g1
    else g1
  let g3 :=
    if g2.colormode = 97 then { g2 with colormode := if g2.isterm ≠ 0 then 108 else 109 }
    else g2
  { g3 with colors := some (get_colors g3.colormode).1,
            stderr := g3.stderr ++ (get_colors g3.colormode).2 }

/-- The function `exit_term`. -/
def exit_term (g : Globals) : Globals :=
  if g.isterm ≠ 0 then tcsetattr g.saved_tios g else g

/-- One result of `getopt(argc, argv, "C:c:")`: the value it returns and the string `optarg`
points to (without its terminating zero). -/
structure Opt where
  opt : Int
  optarg : List Int
  deriving DecidableEq, Repr

/-- The status `EXIT_SUCCESS`. -/
def EXIT_SUCCESS : Int := 0

/-- The status `EXIT_FAILURE`. -/
def EXIT_FAILURE : Int := 1

/-- How `parse_args` ends: it returns, or it calls `exit` with a status. -/
inductive Parsed where
  | returned (g : Globals)
  | exited (status : Int) (g : Globals)
  deriving DecidableEq

/-- The globals `parse_args` leaves. -/
def Parsed.globals : Parsed → Globals
  | Parsed.returned g => g
  | Parsed.exited _ g => g

/-- The function `parse_args`, on the successive results of `getopt`; when the list is
used up `getopt` returns -1. The codes are the letters C (67), c (99) and h (104). The
function `atoi` of the C library is a parameter, `argv0` is the program name. -/
def parse_args (atoi : List Int → Int) (argv0 : String) : List Opt → Globals → Parsed
  | [], g => Parsed.returned g
  | o :: rest, g =>
    if o.opt = -1 then Parsed.returned g
    else if o.opt = 67 then
      parse_args atoi argv0 rest { g with colormode := toChar (tolower (o.optarg.getD 0 0)) }
    else if o.opt = 99 then
      parse_args atoi argv0 rest { g with chances := atoi o.optarg }
    else
      Parsed.exited (if o.opt = 104 then EXIT_SUCCESS else EXIT_FAILURE)
        { g with stderr := g.stderr ++ ["usage: " ++ argv0 ++ " [-c <chances>] [-C <color>]\n"] }

/-- The transition of the input editor as the specification words it, on the list of
buffered symbols: a digit (48..57) is appended when fewer than 4 symbols are held, DEL (127)
drops the last symbol, ^U (21) empties the list, any other character changes nothing. -/
def editor_spec_step (buf : List Int) (ch : Int) : List Int :=
  if 48 ≤ ch ∧ ch ≤ 57 then
    if buf.length < 4 then buf ++ [ch] else buf
  else if ch = 127 then buf.dropLast
  else if ch = 21 then []
  else buf

/-- The logical buffer of the editor: `choice[0 .. pos - 1]`. -/
def Editor.logical (e : Editor) : List Int :=
  (List.range e.pos.toNat).map (fun (k : Nat) => e.choice (k : Int))

/-- The first `n` characters `getchar` returns from index `rd` of the stream on. -/
def keys_read (stdin : Nat → Int) (rd n : Nat) : List Int :=
  (List.range n).map (fun (k : Nat) => stdin (rd + k))

/-- What the terminal shows for `n` buffered symbols: each followed by one space. -/
def echo_text (choice : Buf) : Nat → List Int
  | 0 => []
  | n + 1 => echo_text choice n ++ [choice (n : Int), 32]

/-! ## The feedback of print_test -/

theorem range_NCHARS : List.range NCHARS = [0, 1, 2, 3] := by decide

theorem inner_foldl (choice answer : Buf) (i : Nat) (l : List Nat) (m : Tag) :
    l.foldl (fun m j => if j = i then m else if choice (i : Int) = answer (j : Int)
        then Tag.yellow else m) m =
      if ∃ j, j ∈ l ∧ j ≠ i ∧ choice (i : Int) = answer (j : Int) then Tag.yellow else m := by
  induction l generalizing m with
  | nil => simp
  | cons a t ih =>
    rw [List.foldl_cons, ih]
    by_cases ha : a = i
    · subst ha
      simp
    · by_cases hc : choice (i : Int) = answer (a : Int)
      · have h1 : ∃ j, j ∈ a :: t ∧ j ≠ i ∧ choice (i : Int) = answer (j : Int) :=
          ⟨a, List.mem_cons_self a t, ha, hc⟩
        simp only [if_neg ha, if_pos hc, if_pos h1]
        split <;> rfl
      · simp only [if_neg ha, if_neg hc]
        have : (∃ j, j ∈ a :: t ∧ j ≠ i ∧ choice (i : Int) = answer (j : Int)) ↔
            ∃ j, j ∈ t ∧ j ≠ i ∧ choice (i : Int) = answer (j : Int) := by
          constructor
          · rintro ⟨j, hj, hne, he⟩
            rcases List.mem_cons.mp hj with rfl | hj
            · exact absurd he hc
            · exact ⟨j, hj, hne, he⟩
          · rintro ⟨j, hj, hne, he⟩
            exact ⟨j, List.mem_cons_of_mem a hj, hne, he⟩
        simp only [this]

/-- The tag of one position, as the nested conditionals the two loops unfold to. -/
theorem print_test_inner_eq (choice answer : Buf) (i : Nat) (m : Tag) :
    print_test_inner choice answer i m =
      if ∃ j : Nat, j < NCHARS ∧ j ≠ i ∧ choice (i : Int) = answer (j : Int) then Tag.yellow else m := by
  unfold print_test_inner
  rw [inner_foldl]
  simp only [List.mem_range]

theorem outer_foldl (choice answer : Buf) (l : List Nat) (s : TestState) :
    (l.foldl (print_test_body choice answer) s).tags = s.tags ++ l.map (tagAt choice answer) ∧
    (l.foldl (print_test_body choice answer) s).right =
      s.right + ((l.filter (fun (i : Nat) => decide (choice (i : Int) = answer (i : Int)))).length : Int) := by
  induction l generalizing s with
  | nil => simp
  | cons a t ih =>
    rw [List.foldl_cons]
    obtain ⟨h1, h2⟩ := ih (print_test_body choice answer s a)
    rw [h1, h2]
    by_cases hc : choice (a : Int) = answer (a : Int)
    · simp [print_test_body, tagAt, hc, List.filter_cons]
      ring
    · simp [print_test_body, tagAt, hc, List.filter_cons]

theorem print_test_tags_eq (choice answer : Buf) :
    print_test_tags choice answer = (List.range NCHARS).map (tagAt choice answer) := by
  unfold print_test_tags print_test_loop
  rw [(outer_foldl choice answer _ _).1]
  simp

theorem print_test_right_eq (choice answer : Buf) :
    (print_test_loop choice answer).right =
      (((List.range NCHARS).filter (fun (i : Nat) => decide (choice (i : Int) = answer (i : Int)))).length : Int) := by
  unfold print_test_loop
  rw [(outer_foldl choice answer _ _).2]
  simp

theorem tagAt_getElem (choice answer : Buf) (i : Nat) (hi : i < NCHARS) :
    (print_test_tags choice answer)[i]? = some (tagAt choice answer i) := by
  rw [print_test_tags_eq, List.getElem?_map, List.getElem?_range hi]
  rfl

theorem tagAt_green_iff (choice answer : Buf) (i : Nat) :
    tagAt choice answer i = Tag.green ↔ choice (i : Int) = answer (i : Int) := by
  unfold tagAt
  rw [print_test_inner_eq]
  by_cases h : choice (i : Int) = answer (i : Int)
  · simp [h]
  · rw [if_neg h]
    by_cases hex : ∃ j : Nat, j < NCHARS ∧ j ≠ i ∧ choice (i : Int) = answer (j : Int)
    · rw [if_pos hex]
      exact ⟨fun hc => absurd hc (by decide), fun hc => absurd hc h⟩
    · rw [if_neg hex]
      exact ⟨fun hc => absurd hc (by decide), fun hc => absurd hc h⟩

theorem tagAt_red_iff (choice answer : Buf) (i : Nat) (hi : i < NCHARS) :
    tagAt choice answer i = Tag.red ↔ ∀ j : Nat, j < NCHARS → choice (i : Int) ≠ answer (j : Int) := by
  unfold tagAt
  rw [print_test_inner_eq]
  by_cases h : choice (i : Int) = answer (i : Int)
  · simp only [if_pos h]
    constructor
    · intro hc
      exact absurd hc (by decide)
    · intro hall
      exact absurd h (hall i hi)
  · simp only [if_neg h]
    by_cases hex : ∃ j : Nat, j < NCHARS ∧ j ≠ i ∧ choice (i : Int) = answer (j : Int)
    · simp only [if_pos hex]
      obtain ⟨j, hj, _, he⟩ := hex
      constructor
      · intro hc
        exact absurd hc (by decide)
      · intro hall
        exact absurd he (hall j hj)
    · simp only [if_neg hex, true_iff]
      intro j hj he
      by_cases hji : j = i
      · subst hji
        exact h he
      · exact hex ⟨j, hj, hji, he⟩

/-- C1: for every guess and secret, `print_test` prints exactly `NCHARS = 4` tags, and the
tag of position `i` is Green when `guess[i] = secret[i]` (whatever else the secret holds),
otherwise Yellow when `guess[i] = secret[j]` for some position `j ≠ i`, otherwise Red. -/
theorem print_test_tag_rule (choice answer : Buf) :
    (print_test_tags choice answer).length = NCHARS ∧
    ∀ i : Nat, i < NCHARS →
      (choice (i : Int) = answer (i : Int) →
        (print_test_tags choice answer)[i]? = some Tag.green) ∧
      (choice (i : Int) ≠ answer (i : Int) →
        (∃ j : Nat, j < NCHARS ∧ j ≠ i ∧ choice (i : Int) = answer (j : Int)) →
        (print_test_tags choice answer)[i]? = some Tag.yellow) ∧
      (choice (i : Int) ≠ answer (i : Int) →
        (¬ ∃ j : Nat, j < NCHARS ∧ j ≠ i ∧ choice (i : Int) = answer (j : Int)) →
        (print_test_tags choice answer)[i]? = some Tag.red) := by
  refine ⟨by rw [print_test_tags_eq]; simp, ?_⟩
  intro i hi
  rw [tagAt_getElem choice answer i hi]
  unfold tagAt
  rw [print_test_inner_eq]
  refine ⟨?_, ?_, ?_⟩
  · intro h
    rw [if_pos h]
  · intro h hex
    rw [if_neg h, if_pos hex]
  · intro h hex
    rw [if_neg h, if_neg hex]

theorem all_green_iff (choice answer : Buf) :
    (∀ t ∈ print_test_tags choice answer, t = Tag.green) ↔
      ∀ i : Nat, i < NCHARS → choice (i : Int) = answer (i : Int) := by
  rw [print_test_tags_eq]
  constructor
  · intro h i hi
    exact (tagAt_green_iff choice answer i).mp
      (h _ (List.mem_map.mpr ⟨i, List.mem_range.mpr hi, rfl⟩))
  · intro h t ht
    obtain ⟨i, hi, rfl⟩ := List.mem_map.mp ht
    exact (tagAt_green_iff choice answer i).mpr (h i (List.mem_range.mp hi))

theorem print_test_eq_one_iff (choice answer : Buf) :
    print_test choice answer = 1 ↔
      ∀ i : Nat, i < NCHARS → choice (i : Int) = answer (i : Int) := by
  unfold print_test
  rw [print_test_right_eq]
  have hlen : (List.range NCHARS).length = NCHARS := List.length_range NCHARS
  constructor
  · intro h i hi
    have h4 : ((List.range NCHARS).filter
        (fun (i : Nat) => decide (choice (i : Int) = answer (i : Int)))).length
          = (List.range NCHARS).length := by
      by_contra hne
      rw [if_neg (by rw [hlen] at hne; exact_mod_cast hne)] at h
      exact absurd h (by decide)
    have := (List.filter_length_eq_length.mp h4) i (List.mem_range.mpr hi)
    simpa using this
  · intro h
    have h4 : ((List.range NCHARS).filter
        (fun (i : Nat) => decide (choice (i : Int) = answer (i : Int)))).length
          = (List.range NCHARS).length :=
      List.filter_length_eq_length.mpr (fun i hi => by
        simpa using h i (List.mem_range.mp hi))
    rw [h4, hlen, if_pos rfl]

theorem print_test_zero_or_one (choice answer : Buf) :
    print_test choice answer = 0 ∨ print_test choice answer = 1 := by
  unfold print_test
  split
  · exact Or.inr rfl
  · exact Or.inl rfl

/-- C2: `print_test` returns 1 (win) exactly when every tag it printed is Green, which is
exactly when the guess equals the secret at each of the 4 positions; otherwise it returns 0.
In particular a guess equal to the secret gives four Green tags and a win. -/
theorem print_test_win_iff (choice answer : Buf) :
    (print_test choice answer = 1 ↔ ∀ t ∈ print_test_tags choice answer, t = Tag.green) ∧
    ((∀ t ∈ print_test_tags choice answer, t = Tag.green) ↔
      ∀ i : Nat, i < NCHARS → choice (i : Int) = answer (i : Int)) ∧
    (print_test choice answer ≠ 1 → print_test choice answer = 0) ∧
    ((∀ i : Nat, i < NCHARS → choice (i : Int) = answer (i : Int)) →
      print_test_tags choice answer = [Tag.green, Tag.green, Tag.green, Tag.green] ∧
      print_test choice answer = 1) := by
  refine ⟨?_, all_green_iff choice answer, ?_, ?_⟩
  · rw [print_test_eq_one_iff, all_green_iff]
  · intro h
    rcases print_test_zero_or_one choice answer with h0 | h1
    · exact h0
    · exact absurd h1 h
  · intro h
    refine ⟨?_, (print_test_eq_one_iff choice answer).mpr h⟩
    rw [print_test_tags_eq, range_NCHARS]
    simp only [List.map_cons, List.map_nil]
    rw [(tagAt_green_iff choice answer 0).mpr (h 0 (by decide)),
      (tagAt_green_iff choice answer 1).mpr (h 1 (by decide)),
      (tagAt_green_iff choice answer 2).mpr (h 2 (by decide)),
      (tagAt_green_iff choice answer 3).mpr (h 3 (by decide))]

/-- C6: the tag of position `i` is Red exactly when the symbol `guess[i]` occurs at no
position of the secret. -/
theorem print_test_red_iff (choice answer : Buf) (i : Nat) (hi : i < NCHARS) :
    (print_test_tags choice answer)[i]? = some Tag.red ↔
      ∀ j : Nat, j < NCHARS → choice (i : Int) ≠ answer (j : Int) := by
  rw [tagAt_getElem choice answer i hi, Option.some_inj]
  exact tagAt_red_iff choice answer i hi

/-- C7: two guesses that carry the same symbol at position `i` get the same tag at
position `i` against the same secret, whatever their other positions hold. -/
theorem print_test_tag_local (answer choice1 choice2 : Buf) (i : Nat) (hi : i < NCHARS)
    (h : choice1 (i : Int) = choice2 (i : Int)) :
    (print_test_tags choice1 answer)[i]? = (print_test_tags choice2 answer)[i]? := by
  rw [tagAt_getElem choice1 answer i hi, tagAt_getElem choice2 answer i hi]
  unfold tagAt
  rw [print_test_inner_eq, print_test_inner_eq, h]

/-- C8: the feedback of `print_test` is not multiset-conserving. For the secret 1234 and
the guess 5511 the symbol 1, which occurs once in the secret, is tagged Yellow at two guess
positions, so it gets more Green-or-Yellow tags than it has occurrences in the secret. -/
theorem print_test_not_conserving :
    ∃ (choice answer : Buf) (d : Int),
      occurrences answer d = 1 ∧
      2 ≤ tagged choice (print_test_tags choice answer) d Tag.yellow ∧
      occurrences answer d <
        tagged choice (print_test_tags choice answer) d Tag.green +
          tagged choice (print_test_tags choice answer) d Tag.yellow ∧
      ¬ MultisetConserving choice answer (print_test_tags choice answer) := by
  refine ⟨bufOf [53, 53, 49, 49], bufOf [49, 50, 51, 52], 49, by decide, by decide, by decide, ?_⟩
  intro h
  exact absurd (h 49) (by decide)

/-- C10: the example of the header comment. With the secret 2 3 4 0 the guess 0 3 5 3 is
answered Y G R Y, the guess 1 2 4 6 is answered R Y G R, and the guess 2 3 4 0 is answered
G G G G and wins. -/
theorem print_test_header_example :
    print_test_tags (bufOf [48, 51, 53, 51]) (bufOf [50, 51, 52, 48]) =
      [Tag.yellow, Tag.green, Tag.red, Tag.yellow] ∧
    print_test_tags (bufOf [49, 50, 52, 54]) (bufOf [50, 51, 52, 48]) =
      [Tag.red, Tag.yellow, Tag.green, Tag.red] ∧
    print_test_tags (bufOf [50, 51, 52, 48]) (bufOf [50, 51, 52, 48]) =
      [Tag.green, Tag.green, Tag.green, Tag.green] ∧
    print_test (bufOf [50, 51, 52, 48]) (bufOf [50, 51, 52, 48]) = 1 ∧
    print_test (bufOf [48, 51, 53, 51]) (bufOf [50, 51, 52, 48]) = 0 ∧
    print_test (bufOf [49, 50, 52, 54]) (bufOf [50, 51, 52, 48]) = 0 := by
  decide

/-- Witness of C1 on the header example: position 1 of the guess 0 3 5 3 against 2 3 4 0
is Green, position 0 is Yellow (the 0 sits at position 3 of the secret), position 2 is Red. -/
theorem print_test_tag_rule_witness :
    (print_test_tags (bufOf [48, 51, 53, 51]) (bufOf [50, 51, 52, 48])).length = NCHARS ∧
    (print_test_tags (bufOf [48, 51, 53, 51]) (bufOf [50, 51, 52, 48]))[1]? = some Tag.green ∧
    (print_test_tags (bufOf [48, 51, 53, 51]) (bufOf [50, 51, 52, 48]))[0]? = some Tag.yellow ∧
    (print_test_tags (bufOf [48, 51, 53, 51]) (bufOf [50, 51, 52, 48]))[2]? = some Tag.red :=
  ⟨(print_test_tag_rule (bufOf [48, 51, 53, 51]) (bufOf [50, 51, 52, 48])).1,
   ((print_test_tag_rule (bufOf [48, 51, 53, 51]) (bufOf [50, 51, 52, 48])).2 1
      (by decide)).1 (by decide),
   ((print_test_tag_rule (bufOf [48, 51, 53, 51]) (bufOf [50, 51, 52, 48])).2 0
      (by decide)).2.1 (by decide) ⟨3, by decide, by decide, by decide⟩,
   ((print_test_tag_rule (bufOf [48, 51, 53, 51]) (bufOf [50, 51, 52, 48])).2 2
      (by decide)).2.2 (by decide) (by decide)⟩

/-- Witness of C2: the guess 2 3 4 0 against the secret 2 3 4 0. -/
theorem print_test_win_iff_witness :
    print_test_tags (bufOf [50, 51, 52, 48]) (bufOf [50, 51, 52, 48]) =
      [Tag.green, Tag.green, Tag.green, Tag.green] ∧
    print_test (bufOf [50, 51, 52, 48]) (bufOf [50, 51, 52, 48]) = 1 :=
  (print_test_win_iff (bufOf [50, 51, 52, 48]) (bufOf [50, 51, 52, 48])).2.2.2 (by decide)

/-- Witness of C6: the 5 of the guess 0 3 5 3 is not in the secret 2 3 4 0. -/
theorem print_test_red_iff_witness :
    2 < NCHARS ∧
    (print_test_tags (bufOf [48, 51, 53, 51]) (bufOf [50, 51, 52, 48]))[2]? = some Tag.red :=
  ⟨by decide,
   (print_test_red_iff (bufOf [48, 51, 53, 51]) (bufOf [50, 51, 52, 48]) 2 (by decide)).mpr
     (by decide)⟩

/-- Witness of C7: the guesses 0 3 5 3 and 1 2 5 6 agree at position 2. -/
theorem print_test_tag_local_witness :
    2 < NCHARS ∧ bufOf [48, 51, 53, 51] ((2 : Nat) : Int) = bufOf [49, 50, 53, 54] ((2 : Nat) : Int) ∧
    (print_test_tags (bufOf [48, 51, 53, 51]) (bufOf [50, 51, 52, 48]))[2]? =
      (print_test_tags (bufOf [49, 50, 53, 54]) (bufOf [50, 51, 52, 48]))[2]? :=
  ⟨by decide, by decide,
   print_test_tag_local (bufOf [50, 51, 52, 48]) (bufOf [48, 51, 53, 51])
     (bufOf [49, 50, 53, 54]) 2 (by decide) (by decide)⟩

/-! ## The line editor get_choice -/

theorem is_valid_iff (c : Int) : is_valid c = true ↔ 48 ≤ c ∧ c ≤ 57 := by
  unfold is_valid
  exact decide_eq_true_iff

theorem is_valid_toChar_of_byte (ch : Int) (h1 : -1 ≤ ch) (h2 : ch ≤ 255) :
    is_valid (toChar ch) = true ↔ 48 ≤ ch ∧ ch ≤ 57 := by
  rw [is_valid_iff]
  unfold toChar
  omega

theorem toChar_of_valid_byte (ch : Int) (h1 : 48 ≤ ch) (h2 : ch ≤ 57) : toChar ch = ch := by
  unfold toChar
  omega

theorem iscntrl_iff (ch : Int) : iscntrl ch = true ↔ (0 ≤ ch ∧ ch ≤ 31) ∨ ch = 127 := by
  unfold iscntrl
  exact decide_eq_true_iff

/-- C5: in an editor state holding `pos ≥ 0` symbols, a character from `getchar` (a byte or
`EOF`) that is not a digit while `pos < 4`, not DEL (127) while `pos ≥ 1`, not ^U (21) while
`pos ≥ 1`, and not a newline or carriage return while `pos = 4`, goes through one iteration
of the loop of `get_choice` without changing the buffer, `pos` or the output, and the loop
goes on. -/
theorem get_choice_step_ignored (e : Editor) (ch : Int)
    (hlo : -1 ≤ ch) (hhi : ch ≤ 255) (hpos : 0 ≤ e.pos)
    (hdigit : ¬ ((48 ≤ ch ∧ ch ≤ 57) ∧ e.pos < 4))
    (hdel : ¬ (ch = 127 ∧ 1 ≤ e.pos))
    (hkill : ¬ (ch = 21 ∧ 1 ≤ e.pos))
    (hsubmit : ¬ ((ch = 10 ∨ ch = 13) ∧ e.pos = 4)) :
    get_choice_step ch e = (e, false) := by
  unfold get_choice_step
  have hv : ¬ (is_valid (toChar ch) = true ∧ e.pos < (NCHARS : Int)) := by
    rw [is_valid_toChar_of_byte ch hlo hhi]
    exact hdigit
  rw [if_neg hv]
  by_cases hnl : ch = 10 ∨ ch = 13
  · rw [if_pos hnl]
    have : ¬ e.pos = (NCHARS : Int) := fun h => hsubmit ⟨hnl, h⟩
    simp [this]
  · rw [if_neg hnl]
    by_cases hc : iscntrl ch = true
    · rw [if_pos hc]
      have h1 : ¬ (ch = 127 ∧ e.pos ≠ 0) := fun h => hdel ⟨h.1, by have := h.2; omega⟩
      have h2 : ¬ (ch = 21 ∧ e.pos ≠ 0) := fun h => hkill ⟨h.1, by have := h.2; omega⟩
      rw [if_neg h1, if_neg h2]
    · rw [if_neg hc]

/-- Witness of C5: a fifth digit typed on a full buffer is dropped. -/
theorem get_choice_step_ignored_witness :
    get_choice_step 55 { choice := bufOf [50, 51, 52, 48], pos := 4, out := [] } =
      ({ choice := bufOf [50, 51, 52, 48], pos := 4, out := [] }, false) :=
  get_choice_step_ignored { choice := bufOf [50, 51, 52, 48], pos := 4, out := [] } 55
    (by decide) (by decide) (by decide) (by decide) (by decide) (by decide) (by decide)

theorem get_choice_step_inv (ch : Int) (e : Editor)
    (h0 : 0 ≤ e.pos) (h4 : e.pos ≤ (NCHARS : Int))
    (hd : ∀ i : Int, 0 ≤ i → i < e.pos → 48 ≤ e.choice i ∧ e.choice i ≤ 57) :
    0 ≤ (get_choice_step ch e).1.pos ∧ (get_choice_step ch e).1.pos ≤ (NCHARS : Int) ∧
    ∀ i : Int, 0 ≤ i → i < (get_choice_step ch e).1.pos →
      48 ≤ (get_choice_step ch e).1.choice i ∧ (get_choice_step ch e).1.choice i ≤ 57 := by
  have hN : (NCHARS : Int) = 4 := rfl
  unfold get_choice_step
  by_cases hv : is_valid (toChar ch) = true ∧ e.pos < (NCHARS : Int)
  · rw [if_pos hv]
    refine ⟨by simp only; omega, by simp only; omega, ?_⟩
    intro i hi0 hi
    simp only at hi ⊢
    by_cases hip : i = e.pos
    · rw [hip, Function.update_same]
      exact (is_valid_iff _).mp hv.1
    · rw [Function.update_noteq hip]
      exact hd i hi0 (by omega)
  · rw [if_neg hv]
    by_cases hnl : ch = 10 ∨ ch = 13
    · rw [if_pos hnl]
      exact ⟨h0, h4, hd⟩
    · rw [if_neg hnl]
      by_cases hc : iscntrl ch = true
      · rw [if_pos hc]
        by_cases h1 : ch = 127 ∧ e.pos ≠ 0
        · rw [if_pos h1]
          have := h1.2
          refine ⟨by simp only; omega, by simp only; omega, ?_⟩
          intro i hi0 hi
          simp only at hi ⊢
          exact hd i hi0 (by omega)
        · rw [if_neg h1]
          by_cases h2 : ch = 21 ∧ e.pos ≠ 0
          · rw [if_pos h2]
            refine ⟨by simp, by simp, ?_⟩
            intro i hi0 hi
            simp only at hi
            omega
          · rw [if_neg h2]
            exact ⟨h0, h4, hd⟩
      · rw [if_neg hc]
        exact ⟨h0, h4, hd⟩

theorem get_choice_step_break (ch : Int) (e : Editor) (h : (get_choice_step ch e).2 = true) :
    (ch = 10 ∨ ch = 13) ∧ e.pos = (NCHARS : Int) ∧ (get_choice_step ch e).1 = e := by
  unfold get_choice_step at h ⊢
  by_cases hv : is_valid (toChar ch) = true ∧ e.pos < (NCHARS : Int)
  · rw [if_pos hv] at h
    exact absurd h (by simp)
  · rw [if_neg hv] at h ⊢
    by_cases hnl : ch = 10 ∨ ch = 13
    · rw [if_pos hnl] at h ⊢
      exact ⟨hnl, by simpa using h, rfl⟩
    · rw [if_neg hnl] at h
      by_cases hc : iscntrl ch = true
      · rw [if_pos hc] at h
        by_cases h1 : ch = 127 ∧ e.pos ≠ 0
        · rw [if_pos h1] at h
          exact absurd h (by simp)
        · rw [if_neg h1] at h
          by_cases h2 : ch = 21 ∧ e.pos ≠ 0
          · rw [if_pos h2] at h
            exact absurd h (by simp)
          · rw [if_neg h2] at h
            exact absurd h (by simp)
      · rw [if_neg hc] at h
        exact absurd h (by simp)

theorem get_choice_loop_spec (stdin : Nat → Int) (fuel : Nat) :
    ∀ (rd : Nat) (e e' : Editor) (rd' : Nat),
      0 ≤ e.pos → e.pos ≤ (NCHARS : Int) →
      (∀ i : Int, 0 ≤ i → i < e.pos → 48 ≤ e.choice i ∧ e.choice i ≤ 57) →
      get_choice_loop stdin fuel rd e = some (e', rd') →
      e'.pos = (NCHARS : Int) ∧
      (∀ i : Int, 0 ≤ i → i < (NCHARS : Int) → 48 ≤ e'.choice i ∧ e'.choice i ≤ 57) ∧
      rd < rd' ∧ (stdin (rd' - 1) = 10 ∨ stdin (rd' - 1) = 13) ∧
      get_choice_step (stdin (rd' - 1)) e' = (e', true) := by
  induction fuel with
  | zero =>
    intro rd e e' rd' _ _ _ h
    simp [get_choice_loop] at h
  | succ n ih =>
    intro rd e e' rd' h0 h4 hd h
    rw [get_choice_loop] at h
    obtain ⟨i0, i4, id⟩ := get_choice_step_inv (stdin rd) e h0 h4 hd
    by_cases hb : (get_choice_step (stdin rd) e).2 = true
    · rw [if_pos hb] at h
      obtain ⟨hnl, hpos, hsame⟩ := get_choice_step_break (stdin rd) e hb
      have he : (get_choice_step (stdin rd) e).1 = e' := by
        have := Option.some.inj h
        exact congrArg Prod.fst this
      have hr : rd + 1 = rd' := by
        have := Option.some.inj h
        exact congrArg Prod.snd this
      have hee : e = e' := by rw [← hsame]; exact he
      subst hr
      subst hee
      refine ⟨hpos, ?_, Nat.lt_succ_self rd, ?_, ?_⟩
      · intro i hi0 hi
        exact hd i hi0 (by rw [hpos]; exact hi)
      · simpa using hnl
      · simp only [Nat.add_sub_cancel]
        exact Prod.ext hsame hb
    · rw [if_neg hb] at h
      obtain ⟨r1, r2, r3, r4, r5⟩ := ih (rd + 1) _ e' rd' i0 i4 id h
      exact ⟨r1, r2, by omega, r4, r5⟩

/-- C3: whenever `get_choice` returns, whatever the input stream, the fuel and the previous
content of the buffer, it leaves `pos = NCHARS = 4` symbols in the buffer, each of the four
is an ASCII digit (48..57), and the last character it read was a newline (10) or carriage
return (13), read in the state it returns (so with 4 symbols in the buffer) and leaving the
loop there. -/
theorem get_choice_returns_full (stdin : Nat → Int) (fuel rd : Nat) (choice : Buf)
    (out : List Int) (e : Editor) (rd' : Nat)
    (h : get_choice stdin fuel rd choice out = some (e, rd')) :
    e.pos = (NCHARS : Int) ∧
    (∀ i : Int, 0 ≤ i → i < (NCHARS : Int) → 48 ≤ e.choice i ∧ e.choice i ≤ 57) ∧
    rd < rd' ∧ (stdin (rd' - 1) = 10 ∨ stdin (rd' - 1) = 13) ∧
    get_choice_step (stdin (rd' - 1)) e = (e, true) := by
  unfold get_choice at h
  have hN : (0 : Int) ≤ (NCHARS : Int) := by decide
  refine get_choice_loop_spec stdin fuel rd _ e rd' (le_refl _) hN ?_ h
  intro i hi0 hi
  simp only at hi
  omega

/-- Witness of C3: on the input `2340` followed by a newline `get_choice` returns, after
reading 5 characters, with the buffer the four digit keys leave. -/
theorem get_choice_returns_full_witness :
    get_choice (stdinOf [50, 51, 52, 48, 10]) 5 0 (bufOf []) [] =
      some (feed_keys [50, 51, 52, 48] { choice := bufOf [], pos := 0, out := [] }, 5) ∧
    (feed_keys [50, 51, 52, 48] { choice := bufOf [], pos := 0, out := [] }).pos
      = (NCHARS : Int) ∧
    (∀ i : Int, 0 ≤ i → i < (NCHARS : Int) →
      48 ≤ (feed_keys [50, 51, 52, 48] { choice := bufOf [], pos := 0, out := [] }).choice i ∧
      (feed_keys [50, 51, 52, 48] { choice := bufOf [], pos := 0, out := [] }).choice i ≤ 57) :=
  ⟨rfl,
   (get_choice_returns_full (stdinOf [50, 51, 52, 48, 10]) 5 0 (bufOf []) []
      (feed_keys [50, 51, 52, 48] { choice := bufOf [], pos := 0, out := [] }) 5 rfl).1,
   (get_choice_returns_full (stdinOf [50, 51, 52, 48, 10]) 5 0 (bufOf []) []
      (feed_keys [50, 51, 52, 48] { choice := bufOf [], pos := 0, out := [] }) 5 rfl).2.1⟩

/-! ## Erasing: kill-line against backspaces -/

theorem term_run_append (t : Term) (a b : List Int) :
    term_run t (a ++ b) = term_run (term_run t a) b := by
  unfold term_run
  rw [List.foldl_append]

theorem choice_back_fold (n : Nat) (out : List Int) :
    (List.range n).foldl (fun o _ => putchar 8 (putchar 8 o)) out =
      out ++ List.replicate (2 * n) 8 := by
  induction n with
  | zero => simp
  | succ m ih =>
    rw [List.range_succ, List.foldl_append, ih]
    have h2 : 2 * (m + 1) = 2 * m + 2 := by ring
    rw [h2, List.replicate_add]
    simp [putchar]

theorem choice_back_eq (n : Nat) (out : List Int) :
    choice_back (n : Int) out = out ++ List.replicate (2 * n) 8 ++ [27, 91, 75] := by
  unfold choice_back
  rw [Int.toNat_ofNat, choice_back_fold]

theorem term_run_left (n : Nat) (t : Term) (h : t.esc = 0) :
    term_run t (List.replicate n 8) = { t with col := t.col - n } := by
  induction n generalizing t with
  | zero => rfl
  | succ m ih =>
    rw [List.replicate_succ]
    have hstep : term_run t (8 :: List.replicate m 8) =
        term_run (term_byte t 8) (List.replicate m 8) := rfl
    have hb : term_byte t 8 = { t with col := t.col - 1 } := by
      simp [term_byte, h]
    rw [hstep, hb, ih { t with col := t.col - 1 } h]
    simp only [Term.mk.injEq, true_and, and_true]
    omega

theorem term_run_clear (t : Term) (h : t.esc = 0) :
    term_run t [27, 91, 75] = { t with line := t.line.take t.col } := by
  simp [term_run, term_byte, h]

/-- The terminal after the bytes of `choice_back(n)`: the cursor `2 n` columns to the left
and the line cut there. -/
theorem term_run_choice_back (n : Nat) (out : List Int) (t : Term)
    (h : (term_run t out).esc = 0) :
    term_run t (choice_back (n : Int) out) =
      { line := (term_run t out).line.take ((term_run t out).col - 2 * n),
        col := (term_run t out).col - 2 * n,
        esc := 0 } := by
  rw [choice_back_eq, term_run_append, term_run_append, term_run_left (2 * n) (term_run t out) h,
    term_run_clear { term_run t out with col := (term_run t out).col - 2 * n } h]
  simp [h]

theorem get_choice_step_del (e : Editor) (h : e.pos ≠ 0) :
    get_choice_step 127 e = ({ e with out := choice_back 1 e.out, pos := e.pos - 1 }, false) := by
  have hv : ¬ (is_valid (toChar 127) = true ∧ e.pos < (NCHARS : Int)) := fun hh =>
    absurd hh.1 (by decide)
  have hnl : ¬ ((127 : Int) = 10 ∨ (127 : Int) = 13) := by decide
  have hc : iscntrl 127 = true := by decide
  have h1 : (127 : Int) = 127 ∧ e.pos ≠ 0 := ⟨rfl, h⟩
  unfold get_choice_step
  rw [if_neg hv, if_neg hnl, if_pos hc, if_pos h1]

theorem get_choice_step_kill (e : Editor) (h : e.pos ≠ 0) :
    get_choice_step 21 e = ({ e with out := choice_back e.pos e.out, pos := 0 }, false) := by
  have hv : ¬ (is_valid (toChar 21) = true ∧ e.pos < (NCHARS : Int)) := fun hh =>
    absurd hh.1 (by decide)
  have hnl : ¬ ((21 : Int) = 10 ∨ (21 : Int) = 13) := by decide
  have hc : iscntrl 21 = true := by decide
  have h1 : ¬ ((21 : Int) = 127 ∧ e.pos ≠ 0) := fun hh => absurd hh.1 (by decide)
  have h2 : (21 : Int) = 21 ∧ e.pos ≠ 0 := ⟨rfl, h⟩
  unfold get_choice_step
  rw [if_neg hv, if_neg hnl, if_pos hc, if_neg h1, if_pos h2]

theorem feed_keys_cons (ch : Int) (keys : List Int) (e : Editor) :
    feed_keys (ch :: keys) e = feed_keys keys (get_choice_step ch e).1 := rfl

/-- The editor and the terminal after `k + 1` backspaces typed on `k + 1` symbols. -/
theorem feed_backspaces (k : Nat) :
    ∀ (e : Editor) (t : Term), e.pos = ((k + 1 : Nat) : Int) → (term_run t e.out).esc = 0 →
      (feed_keys (List.replicate (k + 1) 127) e).pos = 0 ∧
      (feed_keys (List.replicate (k + 1) 127) e).choice = e.choice ∧
      term_run t (feed_keys (List.replicate (k + 1) 127) e).out =
        { line := (term_run t e.out).line.take ((term_run t e.out).col - 2 * (k + 1)),
          col := (term_run t e.out).col - 2 * (k + 1),
          esc := 0 } := by
  induction k with
  | zero =>
    intro e t hp hesc
    have hne : e.pos ≠ 0 := by rw [hp]; decide
    rw [List.replicate_succ, feed_keys_cons, get_choice_step_del e hne]
    refine ⟨?_, rfl, ?_⟩
    · show e.pos - 1 = 0
      rw [hp]; rfl
    · show term_run t (choice_back ((1 : Nat) : Int) e.out) = _
      rw [term_run_choice_back 1 e.out t hesc]
  | succ m ih =>
    intro e t hp hesc
    have hne : e.pos ≠ 0 := by rw [hp]; omega
    rw [List.replicate_succ, feed_keys_cons, get_choice_step_del e hne]
    have hT : term_run t (choice_back ((1 : Nat) : Int) e.out) =
        { line := (term_run t e.out).line.take ((term_run t e.out).col - 2 * 1),
          col := (term_run t e.out).col - 2 * 1,
          esc := 0 } := term_run_choice_back 1 e.out t hesc
    obtain ⟨r1, r2, r3⟩ := ih { e with out := choice_back 1 e.out, pos := e.pos - 1 } t
      (by show e.pos - 1 = _; rw [hp]; push_cast; ring)
      (by show (term_run t (choice_back ((1 : Nat) : Int) e.out)).esc = 0; rw [hT])
    refine ⟨r1, r2, ?_⟩
    rw [r3]
    have hT2 : term_run t ({ e with out := choice_back 1 e.out, pos := e.pos - 1 } : Editor).out
        = term_run t (choice_back ((1 : Nat) : Int) e.out) := rfl
    rw [hT2, hT]
    simp only [Term.mk.injEq, and_true]
    refine ⟨?_, by omega⟩
    rw [List.take_take]
    congr 1
    omega

/-- C9: in an editor state holding `k ≥ 1` symbols, one kill-line keystroke (^U, 21) and `k`
backspace keystrokes (DEL, 127) both leave `pos = 0` and the buffer bytes untouched, and they
leave the terminal in the same state: the cursor `2 k` columns to the left of where it was
and the line cleared from there on. Neither leaves the loop. -/
theorem kill_line_eq_backspaces (e : Editor) (k : Nat) (t : Term)
    (hk : 1 ≤ k) (hpos : e.pos = (k : Int)) (hesc : (term_run t e.out).esc = 0) :
    (get_choice_step 21 e).2 = false ∧
    (get_choice_step 21 e).1.pos = 0 ∧
    (feed_keys (List.replicate k 127) e).pos = 0 ∧
    (get_choice_step 21 e).1.choice = (feed_keys (List.replicate k 127) e).choice ∧
    term_run t (get_choice_step 21 e).1.out =
      term_run t (feed_keys (List.replicate k 127) e).out ∧
    term_run t (get_choice_step 21 e).1.out =
      { line := (term_run t e.out).line.take ((term_run t e.out).col - 2 * k),
        col := (term_run t e.out).col - 2 * k,
        esc := 0 } := by
  obtain ⟨m, rfl⟩ : ∃ m, k = m + 1 := ⟨k - 1, by omega⟩
  have hne : e.pos ≠ 0 := by rw [hpos]; omega
  obtain ⟨r1, r2, r3⟩ := feed_backspaces m e t hpos hesc
  have hkill : term_run t (get_choice_step 21 e).1.out =
      { line := (term_run t e.out).line.take ((term_run t e.out).col - 2 * (m + 1)),
        col := (term_run t e.out).col - 2 * (m + 1),
        esc := 0 } := by
    rw [get_choice_step_kill e hne]
    show term_run t (choice_back e.pos e.out) = _
    rw [hpos, term_run_choice_back (m + 1) e.out t hesc]
  refine ⟨?_, ?_, r1, ?_, ?_, hkill⟩
  · rw [get_choice_step_kill e hne]
  · rw [get_choice_step_kill e hne]
  · rw [get_choice_step_kill e hne, r2]
  · rw [hkill, r3]

/-- Witness of C9: two symbols on the line, erased by one ^U or by two DEL. -/
theorem kill_line_eq_backspaces_witness :
    term_run { line := [50, 32, 51, 32], col := 4, esc := 0 }
        (get_choice_step 21 { choice := bufOf [50, 51], pos := 2, out := [] }).1.out =
      term_run { line := [50, 32, 51, 32], col := 4, esc := 0 }
        (feed_keys [127, 127] { choice := bufOf [50, 51], pos := 2, out := [] }).out ∧
    term_run { line := [50, 32, 51, 32], col := 4, esc := 0 }
        (get_choice_step 21 { choice := bufOf [50, 51], pos := 2, out := [] }).1.out =
      { line := [], col := 0, esc := 0 } :=
  ⟨(kill_line_eq_backspaces { choice := bufOf [50, 51], pos := 2, out := [] } 2
      { line := [50, 32, 51, 32], col := 4, esc := 0 } (by decide) rfl rfl).2.2.2.2.1,
   (kill_line_eq_backspaces { choice := bufOf [50, 51], pos := 2, out := [] } 2
      { line := [50, 32, 51, 32], col := 4, esc := 0 } (by decide) rfl rfl).2.2.2.2.2⟩

/-! ## The game loop -/

theorem wrap32_id (x : Int) (h0 : -2147483648 ≤ x) (h1 : x < 2147483648) : wrap32 x = x := by
  unfold wrap32
  omega

theorem wrap32_le (x : Int) : wrap32 x ≤ 2147483647 := by
  unfold wrap32
  omega

theorem main_loop_succ (answer : Buf) (chances : Int) (guesses : Nat → Buf) (fuel : Nat)
    (g : Game) :
    main_loop answer chances guesses (fuel + 1) g =
      if g.i ≤ chances ∧ g.done = 0 then
        main_loop answer chances guesses fuel
          { i := wrap32 (g.i + 1),
            done := print_test (guesses g.n) answer,
            n := g.n + 1,
            out := g.out ++
              [Event.prompt g.i, Event.feedback (print_test_tags (guesses g.n) answer)] }
      else some g := rfl

/-- One losing attempt, from the state the loop is in before attempt `n + 1`. -/
theorem main_loop_attempt (answer : Buf) (chances : Int) (guesses : Nat → Buf) (fuel n : Nat)
    (hn : (n : Int) < chances) (hc : chances < 2147483647) :
    main_loop answer chances guesses (fuel + 1)
        { i := (n : Int) + 1, done := 0, n := n, out := attempts_output answer guesses n } =
      main_loop answer chances guesses fuel
        { i := ((n + 1 : Nat) : Int) + 1, done := print_test (guesses n) answer, n := n + 1,
          out := attempts_output answer guesses (n + 1) } := by
  rw [main_loop_succ, if_pos ⟨by show (n : Int) + 1 ≤ chances; omega, rfl⟩]
  have hw : wrap32 ((n : Int) + 1 + 1) = ((n + 1 : Nat) : Int) + 1 := by
    rw [wrap32_id _ (by omega) (by omega)]
    push_cast
    ring
  show main_loop answer chances guesses fuel
      { i := wrap32 ((n : Int) + 1 + 1), done := print_test (guesses n) answer, n := n + 1,
        out := attempts_output answer guesses n ++
          [Event.prompt ((n : Int) + 1), Event.feedback (print_test_tags (guesses n) answer)] } = _
  rw [hw]
  rfl

theorem main_loop_win (answer : Buf) (chances : Int) (guesses : Nat → Buf)
    (hc : chances < 2147483647) (d : Nat) :
    ∀ (n fuel : Nat),
      (∀ j : Nat, n ≤ j → j < n + d → print_test (guesses j) answer = 0) →
      print_test (guesses (n + d)) answer = 1 →
      ((n + d : Nat) : Int) < chances → d + 2 ≤ fuel →
      main_loop answer chances guesses fuel
          { i := (n : Int) + 1, done := 0, n := n, out := attempts_output answer guesses n } =
        some { i := ((n + d + 1 : Nat) : Int) + 1, done := 1, n := n + d + 1,
               out := attempts_output answer guesses (n + d + 1) } := by
  induction d with
  | zero =>
    intro n fuel _ hwin hlt hf
    obtain ⟨f, rfl⟩ : ∃ f, fuel = f + 2 := ⟨fuel - 2, by omega⟩
    rw [main_loop_attempt answer chances guesses (f + 1) n (by simpa using hlt) hc]
    rw [main_loop_succ]
    have hw : print_test (guesses n) answer = 1 := by simpa using hwin
    rw [hw, if_neg (by simp)]
  | succ m ih =>
    intro n fuel hlose hwin hlt hf
    obtain ⟨f, rfl⟩ : ∃ f, fuel = f + 1 := ⟨fuel - 1, by omega⟩
    rw [main_loop_attempt answer chances guesses f n (by push_cast at hlt; omega) hc]
    rw [hlose n (le_refl n) (by omega)]
    have h := ih (n + 1) f (fun j hj1 hj2 => hlose j (by omega) (by omega))
      (by rw [show n + 1 + m = n + (m + 1) by ring]; exact hwin)
      (by rw [show n + 1 + m = n + (m + 1) by ring]; exact hlt) (by omega)
    rw [show n + 1 + m + 1 = n + (m + 1) + 1 by ring] at h
    exact h

theorem main_loop_lose (answer : Buf) (chances : Int) (guesses : Nat → Buf)
    (hc : chances < 2147483647) (d : Nat) :
    ∀ (n fuel : Nat),
      (∀ j : Nat, n ≤ j → j < n + d → print_test (guesses j) answer = 0) →
      ((n + d : Nat) : Int) = chances → d + 1 ≤ fuel →
      main_loop answer chances guesses fuel
          { i := (n : Int) + 1, done := 0, n := n, out := attempts_output answer guesses n } =
        some { i := ((n + d : Nat) : Int) + 1, done := 0, n := n + d,
               out := attempts_output answer guesses (n + d) } := by
  induction d with
  | zero =>
    intro n fuel _ heq hf
    obtain ⟨f, rfl⟩ : ∃ f, fuel = f + 1 := ⟨fuel - 1, by omega⟩
    rw [main_loop_succ, if_neg]
    · rfl
    · intro hh
      have := hh.1
      simp only [Nat.add_zero] at heq
      simp only at this
      omega
  | succ m ih =>
    intro n fuel hlose heq hf
    obtain ⟨f, rfl⟩ : ∃ f, fuel = f + 1 := ⟨fuel - 1, by omega⟩
    rw [main_loop_attempt answer chances guesses f n (by push_cast at heq; omega) hc]
    rw [hlose n (le_refl n) (by omega)]
    have h := ih (n + 1) f (fun j hj1 hj2 => hlose j (by omega) (by omega))
      (by rw [show n + 1 + m = n + (m + 1) by ring]; exact heq) (by omega)
    rw [show n + 1 + m = n + (m + 1) by ring] at h
    exact h

theorem print_test_eq_zero_iff (choice answer : Buf) :
    print_test choice answer = 0 ↔
      ¬ ∀ i : Nat, i < NCHARS → choice (i : Int) = answer (i : Int) := by
  rw [← print_test_eq_one_iff]
  rcases print_test_zero_or_one choice answer with h | h <;> rw [h] <;> decide

theorem attempts_output_no_reveal (answer : Buf) (guesses : Nat → Buf) (n : Nat) (a : List Int) :
    Event.reveal a ∉ attempts_output answer guesses n := by
  induction n with
  | zero => simp [attempts_output]
  | succ m ih => simp [attempts_output, ih]

theorem main_loop_no_reveal (answer : Buf) (chances : Int) (guesses : Nat → Buf) (fuel : Nat) :
    ∀ (g g' : Game), (∀ a, Event.reveal a ∉ g.out) →
      main_loop answer chances guesses fuel g = some g' → ∀ a, Event.reveal a ∉ g'.out := by
  induction fuel with
  | zero =>
    intro g g' _ h
    simp [main_loop] at h
  | succ f ih =>
    intro g g' hg h
    rw [main_loop_succ] at h
    by_cases hc : g.i ≤ chances ∧ g.done = 0
    · rw [if_pos hc] at h
      refine ih _ g' ?_ h
      intro a
      simp [hg a]
    · rw [if_neg hc] at h
      have := Option.some.inj h
      subst this
      exact hg

theorem main_game_reveal_iff (answer : Buf) (chances : Int) (guesses : Nat → Buf) (fuel : Nat)
    (g : Game) (h : main_game answer chances guesses fuel = some g) :
    reveal_event answer ∈ g.out ↔ g.done = 0 := by
  unfold main_game at h
  simp only at h
  cases hl : main_loop answer (if chances = 0 then 10 else chances) guesses fuel
      { i := 1, done := 0, n := 0, out := [] } with
  | none =>
    rw [hl] at h
    simp at h
  | some g0 =>
    rw [hl] at h
    simp only at h
    have hnr := main_loop_no_reveal answer _ guesses fuel _ g0 (by simp) hl
    by_cases hd : g0.done = 0
    · rw [if_pos hd] at h
      have := Option.some.inj h
      subst this
      simp [reveal_event, hd]
    · rw [if_neg hd] at h
      have := Option.some.inj h
      subst this
      simp only [hd, iff_false]
      exact hnr _

/-- The game loop for a chances value below `INT_MAX`, for every secret and every sequence
of guesses. If attempt `k + 1 ≤ chances` is the first whose guess equals the secret, the loop
plays the attempts numbered `1 .. k + 1` and stops there with `done = 1`, reading no further
guess and printing no answer. If none of the first `chances` guesses equals the secret, it
plays exactly `chances` attempts and then prints the answer. Whenever the game ends, the
answer has been printed exactly when `done = 0`. -/
theorem main_game_outcome (answer : Buf) (chances : Int) (guesses : Nat → Buf)
    (h1 : 1 ≤ chances) (h2 : chances < 2147483647) :
    (∀ k : Nat, (k : Int) < chances →
      (∀ j : Nat, j < k → ¬ ∀ i : Nat, i < NCHARS → guesses j (i : Int) = answer (i : Int)) →
      (∀ i : Nat, i < NCHARS → guesses k (i : Int) = answer (i : Int)) →
      ∀ fuel : Nat, k + 2 ≤ fuel →
        main_game answer chances guesses fuel =
          some { i := (k : Int) + 2, done := 1, n := k + 1,
                 out := attempts_output answer guesses (k + 1) }) ∧
    ((∀ k : Nat, (k : Int) < chances →
        ¬ ∀ i : Nat, i < NCHARS → guesses k (i : Int) = answer (i : Int)) →
      ∀ fuel : Nat, chances.toNat + 1 ≤ fuel →
        main_game answer chances guesses fuel =
          some { i := chances + 1, done := 0, n := chances.toNat,
                 out := attempts_output answer guesses chances.toNat ++ [reveal_event answer] }) ∧
    (∀ (fuel : Nat) (g : Game), main_game answer chances guesses fuel = some g →
      (reveal_event answer ∈ g.out ↔ g.done = 0)) := by
  have hne : ¬ chances = 0 := by omega
  refine ⟨?_, ?_, fun fuel g h => main_game_reveal_iff answer chances guesses fuel g h⟩
  · intro k hk hlose hwin fuel hf
    have h := main_loop_win answer chances guesses h2 k 0 fuel
      (fun j _ hj => (print_test_eq_zero_iff _ _).mpr (hlose j (by omega)))
      (by rw [Nat.zero_add]; exact (print_test_eq_one_iff _ _).mpr hwin)
      (by rw [Nat.zero_add]; exact hk) hf
    unfold main_game
    simp only [if_neg hne]
    have h0 : ({ i := 1, done := 0, n := 0, out := [] } : Game) =
        { i := ((0 : Nat) : Int) + 1, done := 0, n := 0,
          out := attempts_output answer guesses 0 } := rfl
    rw [h0, h]
    simp only [Nat.zero_add]
    rw [if_neg (by decide)]
    have hi : ((k + 1 : Nat) : Int) + 1 = (k : Int) + 2 := by
      push_cast
      ring
    rw [hi]
  · intro hlose fuel hf
    have hcn : ((0 + chances.toNat : Nat) : Int) = chances := by
      rw [Nat.zero_add]
      exact Int.toNat_of_nonneg (by omega)
    have h := main_loop_lose answer chances guesses h2 chances.toNat 0 fuel
      (fun j _ hj => (print_test_eq_zero_iff _ _).mpr (hlose j (by omega)))
      hcn hf
    unfold main_game
    simp only [if_neg hne]
    have h0 : ({ i := 1, done := 0, n := 0, out := [] } : Game) =
        { i := ((0 : Nat) : Int) + 1, done := 0, n := 0,
          out := attempts_output answer guesses 0 } := rfl
    rw [h0, h]
    simp only [Nat.zero_add]
    rw [if_pos trivial]
    have hcn2 : ((chances.toNat : Nat) : Int) = chances := Int.toNat_of_nonneg (by omega)
    rw [hcn2]
    rfl

/-- An instance of `main_game_outcome`: with 3 chances and the secret 2 3 4 0, the guesses
0 3 5 3, 1 2 4 6, 2 3 4 0 end the game at attempt 3 with a win, and the guess 1 1 1 1 made
three times ends it after attempt 3 with the answer revealed. -/
theorem main_game_outcome_witness :
    main_game (bufOf [50, 51, 52, 48]) 3
        (fun k => bufOf ([[48, 51, 53, 51], [49, 50, 52, 54], [50, 51, 52, 48]].getD k [])) 4 =
      some { i := ((2 : Nat) : Int) + 2, done := 1, n := 2 + 1,
             out := attempts_output (bufOf [50, 51, 52, 48])
               (fun k => bufOf ([[48, 51, 53, 51], [49, 50, 52, 54], [50, 51, 52, 48]].getD k []))
               (2 + 1) } ∧
    main_game (bufOf [50, 51, 52, 48]) 3 (fun _ => bufOf [49, 49, 49, 49]) 4 =
      some { i := 3 + 1, done := 0, n := (3 : Int).toNat,
             out := attempts_output (bufOf [50, 51, 52, 48]) (fun _ => bufOf [49, 49, 49, 49])
               (3 : Int).toNat ++ [reveal_event (bufOf [50, 51, 52, 48])] } :=
  ⟨(main_game_outcome (bufOf [50, 51, 52, 48]) 3
      (fun k => bufOf ([[48, 51, 53, 51], [49, 50, 52, 54], [50, 51, 52, 48]].getD k []))
      (by decide) (by decide)).1 2 (by decide) (by decide) (by decide) 4 (by decide),
   (main_game_outcome (bufOf [50, 51, 52, 48]) 3 (fun _ => bufOf [49, 49, 49, 49])
      (by decide) (by decide)).2.1
      (fun _ _ => (by decide : ¬ ∀ i : Nat, i < NCHARS →
        bufOf [49, 49, 49, 49] (i : Int) = bufOf [50, 51, 52, 48] (i : Int)))
      4 (by decide)⟩

theorem main_loop_int_max (answer : Buf) (guesses : Nat → Buf)
    (hlose : ∀ n, print_test (guesses n) answer = 0) (fuel : Nat) :
    ∀ g : Game, g.done = 0 → g.i ≤ 2147483647 →
      main_loop answer 2147483647 guesses fuel g = none := by
  induction fuel with
  | zero =>
    intro g _ _
    rfl
  | succ f ih =>
    intro g hd hi
    rw [main_loop_succ, if_pos ⟨hi, hd⟩]
    exact ih _ (hlose g.n) (wrap32_le _)

/-- C4: with `chances = INT_MAX = 2147483647` the condition `i <= chances` holds for every
value of the 32-bit counter `i`, so when no guess wins (here: secret 2 3 4 0, every guess
1 1 1 1) the loop of `main` never ends, whatever the fuel: there is no loss after `chances`
attempts and the answer is never printed. -/
theorem main_game_int_max_never_ends :
    ¬ ∃ fuel : Nat,
      (main_game (bufOf [50, 51, 52, 48]) 2147483647 (fun _ => bufOf [49, 49, 49, 49])
        fuel).isSome = true := by
  rintro ⟨fuel, h⟩
  have hl := main_loop_int_max (bufOf [50, 51, 52, 48]) (fun _ => bufOf [49, 49, 49, 49])
    (fun _ => (by decide : print_test (bufOf [49, 49, 49, 49]) (bufOf [50, 51, 52, 48]) = 0))
    fuel { i := 1, done := 0, n := 0, out := [] } rfl (by decide)
  unfold main_game at h
  have hne : ¬ ((2147483647 : Int) = 0) := by decide
  simp only [if_neg hne] at h
  rw [hl] at h
  exact absurd h (by decide)

/-! ## The answer of mkanswer -/

theorem mkanswer_symbol_eq (r : Int) (h : 0 ≤ r) : mkanswer_symbol r = 48 + r % 9 := by
  unfold mkanswer_symbol toChar
  rw [Int.tmod_eq_emod h (by decide)]
  omega

theorem mkanswer_at (rand : Nat → Int) (answer : Buf) (i : Nat) (hi : i < NCHARS) :
    mkanswer rand answer (i : Int) = mkanswer_symbol (rand i) := by
  unfold mkanswer
  rw [range_NCHARS]
  simp only [List.foldl_cons, List.foldl_nil]
  have h4 : i < 4 := hi
  interval_cases i <;> simp [Function.update]

/-- C12: for non-negative values of `rand()`, each of the `NCHARS = 4` symbols `mkanswer`
stores is `48 + (r mod 9)` for the value `r` drawn for it: a symbol `is_valid` accepts,
in the range 48..56 (the characters 0 to 8), never 57 (the character 9); and each of the
nine symbols 48..56 is attained at each position. -/
theorem mkanswer_nine_symbols (rand : Nat → Int) (answer : Buf) (hr : ∀ k, 0 ≤ rand k) :
    (∀ i : Nat, i < NCHARS →
      mkanswer rand answer (i : Int) = 48 + rand i % 9 ∧
      is_valid (mkanswer rand answer (i : Int)) = true ∧
      48 ≤ mkanswer rand answer (i : Int) ∧ mkanswer rand answer (i : Int) ≤ 56 ∧
      mkanswer rand answer (i : Int) ≠ 57) ∧
    (∀ d : Int, 48 ≤ d → d ≤ 56 → ∀ i : Nat, i < NCHARS →
      ∃ rand1 : Nat → Int, (∀ k, 0 ≤ rand1 k) ∧ mkanswer rand1 answer (i : Int) = d) := by
  constructor
  · intro i hi
    have he : mkanswer rand answer (i : Int) = 48 + rand i % 9 := by
      rw [mkanswer_at rand answer i hi, mkanswer_symbol_eq _ (hr i)]
    rw [he, is_valid_iff]
    omega
  · intro d h1 h2 i hi
    have hd : (0 : Int) ≤ d - 48 := by omega
    refine ⟨fun _ => d - 48, fun _ => hd, ?_⟩
    rw [mkanswer_at _ answer i hi, mkanswer_symbol_eq _ hd]
    omega

/-- Witness of C12: the draws 9, 17, 4, 8 give the answer 0 8 4 8. -/
theorem mkanswer_nine_symbols_witness :
    mkanswer (fun k => [9, 17, 4, 8].getD k 0) (bufOf []) ((1 : Nat) : Int) =
      48 + (fun k => [9, 17, 4, 8].getD k 0) 1 % 9 ∧
    mkanswer (fun k => [9, 17, 4, 8].getD k 0) (bufOf []) ((1 : Nat) : Int) ≠ 57 :=
  ⟨((mkanswer_nine_symbols (fun k => [9, 17, 4, 8].getD k 0) (bufOf [])
      (fun k => by
        show (0 : Int) ≤ [9, 17, 4, 8].getD k 0
        rcases k with _ | _ | _ | _ | _ | k <;> simp)).1 1 (by decide)).1,
   ((mkanswer_nine_symbols (fun k => [9, 17, 4, 8].getD k 0) (bufOf [])
      (fun k => by
        show (0 : Int) ≤ [9, 17, 4, 8].getD k 0
        rcases k with _ | _ | _ | _ | _ | k <;> simp)).1 1 (by decide)).2.2.2.2⟩

/-- C11: the character 9 (code 57) is a symbol `is_valid` accepts, but `mkanswer` stores it
at no position, whatever non-negative values `rand()` returns: the draw is taken modulo
`57 - 48 = 9`, so the answer is made of the characters 0 to 8 only. -/
theorem mkanswer_never_nine :
    is_valid 57 = true ∧
    mkanswer (fun _ => 9) (bufOf []) ((0 : Nat) : Int) = 48 ∧
    ¬ ∃ (rand : Nat → Int) (answer : Buf) (i : Nat),
      (∀ k, 0 ≤ rand k) ∧ i < NCHARS ∧ mkanswer rand answer (i : Int) = 57 := by
  refine ⟨by decide, by decide, ?_⟩
  rintro ⟨rand, answer, i, hr, hi, h⟩
  rw [mkanswer_at rand answer i hi, mkanswer_symbol_eq _ (hr i)] at h
  omega

/-! ## Color mode and exit status -/

theorem get_colors_other (c : Int) (h1 : c ≠ 109) (h2 : c ≠ 100) (h3 : c ≠ 108)
    (h4 : c ≠ 103) :
    get_colors c = (colors_mono, ["invalid color mode, falling back to mono\n"]) := by
  unfold get_colors
  rw [if_neg h1, if_neg h2, if_neg h3, if_neg h4]

theorem init_term_colormode (ICANON ECHO : Nat) (tios0 : termios) (g : Globals)
    (ha : g.colormode ≠ 97) :
    (init_term ICANON ECHO tios0 g).colors = some (get_colors g.colormode).1 ∧
    ∀ s ∈ (get_colors g.colormode).2, s ∈ (init_term ICANON ECHO tios0 g).stderr := by
  unfold init_term
  cases hfd : g.fd0 with
  | tty attrs =>
    simp [tcsetattr, hfd, ha]
    intro s hs
    exact Or.inr hs
  | notty =>
    by_cases hi : g.isterm = 0
    · simp [tcsetattr, hfd, ha, hi]
      intro s hs
      exact Or.inr hs
    · simp [tcsetattr, hfd, ha, hi]
      intro s hs
      exact Or.inr hs
  | error =>
    by_cases hi : g.isterm = 0
    · simp [tcsetattr, hfd, ha, hi]
      intro s hs
      exact Or.inr (Or.inr hs)
    · simp [tcsetattr, hfd, ha, hi]
      intro s hs
      exact Or.inr (Or.inr hs)

theorem parse_args_color (atoi : List Int → Int) (argv0 : String) (arg : List Int)
    (g : Globals) :
    parse_args atoi argv0 [{ opt := 67, optarg := arg }] g =
      Parsed.returned { g with colormode := toChar (tolower (arg.getD 0 0)) } := by
  simp [parse_args]

/-- C13, as amended: for every argument of the option `-C` whose first character, lower-cased
and stored in `colormode`, is none of the letters a (97), m (109), d (100), l (108), g (103),
`parse_args` returns, `init_term` selects the mono theme, and the warning is written to
the error stream. -/
theorem color_mode_fallback (atoi : List Int → Int) (argv0 : String) (ICANON ECHO : Nat)
    (tios0 : termios) (fd0 : Fd0) (arg : List Int)
    (ha : toChar (tolower (arg.getD 0 0)) ≠ 97) (hm : toChar (tolower (arg.getD 0 0)) ≠ 109)
    (hd : toChar (tolower (arg.getD 0 0)) ≠ 100) (hl : toChar (tolower (arg.getD 0 0)) ≠ 108)
    (hg : toChar (tolower (arg.getD 0 0)) ≠ 103) :
    (∃ g, parse_args atoi argv0 [{ opt := 67, optarg := arg }] (Globals.initial fd0) =
      Parsed.returned g) ∧
    (init_term ICANON ECHO tios0
      (parse_args atoi argv0 [{ opt := 67, optarg := arg }]
        (Globals.initial fd0)).globals).colors = some colors_mono ∧
    "invalid color mode, falling back to mono\n" ∈
      (init_term ICANON ECHO tios0
        (parse_args atoi argv0 [{ opt := 67, optarg := arg }]
          (Globals.initial fd0)).globals).stderr := by
  rw [parse_args_color]
  refine ⟨⟨_, rfl⟩, ?_⟩
  have h := init_term_colormode ICANON ECHO tios0
    { Globals.initial fd0 with colormode := toChar (tolower (arg.getD 0 0)) } ha
  have hc : get_colors (toChar (tolower (arg.getD 0 0))) =
      (colors_mono, ["invalid color mode, falling back to mono\n"]) :=
    get_colors_other _ hm hd hl hg
  simp only [Parsed.globals]
  simp only [hc] at h
  exact ⟨h.1, h.2 _ (List.mem_singleton.mpr rfl)⟩

/-- Witness of C13 as amended: the argument `x` (120). -/
theorem color_mode_fallback_witness :
    (init_term 2 8 { c_iflag := 0, c_oflag := 0, c_cflag := 0, c_lflag := 0, c_cc := [] }
      (parse_args (fun _ => 0) "mind" [{ opt := 67, optarg := [120] }]
        (Globals.initial Fd0.notty)).globals).colors = some colors_mono ∧
    "invalid color mode, falling back to mono\n" ∈
      (init_term 2 8 { c_iflag := 0, c_oflag := 0, c_cflag := 0, c_lflag := 0, c_cc := [] }
        (parse_args (fun _ => 0) "mind" [{ opt := 67, optarg := [120] }]
          (Globals.initial Fd0.notty)).globals).stderr :=
  (color_mode_fallback (fun _ => 0) "mind" 2 8
    { c_iflag := 0, c_oflag := 0, c_cflag := 0, c_lflag := 0, c_cc := [] } Fd0.notty [120]
    (by decide) (by decide) (by decide) (by decide) (by decide)).2

/-- C13 fails as stated: the argument `dog` (100 111 103) is none of the names auto, mono,
dark, light, grey, yet it selects the dark theme, not the mono theme, and nothing is written
to the error stream. Only the first character of the argument is looked at. -/
theorem color_mode_dog_selects_dark :
    ([100, 111, 103] : List Int) ≠ [97, 117, 116, 111] ∧
    ([100, 111, 103] : List Int) ≠ [109, 111, 110, 111] ∧
    ([100, 111, 103] : List Int) ≠ [100, 97, 114, 107] ∧
    ([100, 111, 103] : List Int) ≠ [108, 105, 103, 104, 116] ∧
    ([100, 111, 103] : List Int) ≠ [103, 114, 101, 121] ∧
    (init_term 2 8 { c_iflag := 0, c_oflag := 0, c_cflag := 0, c_lflag := 0, c_cc := [] }
      (parse_args (fun _ => 0) "mind" [{ opt := 67, optarg := [100, 111, 103] }]
        (Globals.initial Fd0.notty)).globals).colors = some colors_dark ∧
    colors_dark ≠ colors_mono ∧
    (init_term 2 8 { c_iflag := 0, c_oflag := 0, c_cflag := 0, c_lflag := 0, c_cc := [] }
      (parse_args (fun _ => 0) "mind" [{ opt := 67, optarg := [100, 111, 103] }]
        (Globals.initial Fd0.notty)).globals).stderr = [] := by
  decide

/-! ## Termination of the game and the number of attempts -/

theorem main_game_neg (answer : Buf) (chances : Int) (guesses : Nat → Buf) (fuel : Nat)
    (h : chances < 0) :
    main_game answer chances guesses (fuel + 1) =
      some { i := 1, done := 0, n := 0, out := [reveal_event answer] } := by
  have hne : ¬ chances = 0 := by omega
  unfold main_game
  simp only [if_neg hne]
  rw [main_loop_succ, if_neg (by simp only [not_and]; intro h1; omega)]
  rfl

theorem main_game_zero (answer : Buf) (guesses : Nat → Buf) (fuel : Nat) :
    main_game answer 0 guesses fuel = main_game answer 10 guesses fuel := rfl

/-- The number of attempts `main` offers, for a parsed chances value below `INT_MAX`: when
no guess wins, the game reads 10 guesses if the value is 0 and `max(chances, 0)` guesses
otherwise, then prints the answer; for a negative value it reads no guess and prints only
the answer. -/
theorem main_game_attempts (answer : Buf) (chances : Int) (guesses : Nat → Buf)
    (h : chances < 2147483647)
    (hlose : ∀ k : Nat, ¬ ∀ i : Nat, i < NCHARS → guesses k (i : Int) = answer (i : Int)) :
    ∃ fuel : Nat, ∀ fuel1 : Nat, fuel ≤ fuel1 →
      ∃ g, main_game answer chances guesses fuel1 = some g ∧
        g.n = (if chances = 0 then 10 else (max chances 0).toNat) ∧ g.done = 0 ∧
        reveal_event answer ∈ g.out ∧
        (chances < 0 → g.out = [reveal_event answer]) := by
  rcases lt_trichotomy chances 0 with hneg | hz | hpos
  · refine ⟨1, fun fuel1 hf => ?_⟩
    obtain ⟨f, rfl⟩ : ∃ f, fuel1 = f + 1 := ⟨fuel1 - 1, by omega⟩
    refine ⟨_, main_game_neg answer chances guesses f hneg, ?_, rfl, ?_, fun _ => rfl⟩
    · have hne : ¬ chances = 0 := by omega
      rw [if_neg hne, max_eq_right (by omega)]
      rfl
    · exact List.mem_singleton.mpr rfl
  · subst hz
    obtain ⟨_, hl, _⟩ := main_game_outcome answer 10 guesses (by decide) (by decide)
    refine ⟨11, fun fuel1 hf => ?_⟩
    refine ⟨_, by rw [main_game_zero]; exact hl (fun k _ => hlose k) fuel1 hf, ?_, rfl, ?_,
      fun hh => absurd hh (by decide)⟩
    · rfl
    · exact List.mem_append_right _ (List.mem_singleton.mpr rfl)
  · obtain ⟨_, hl, _⟩ := main_game_outcome answer chances guesses (by omega) h
    refine ⟨chances.toNat + 1, fun fuel1 hf => ?_⟩
    refine ⟨_, hl (fun k _ => hlose k) fuel1 hf, ?_, rfl, ?_, fun hh => by omega⟩
    · have hne : ¬ chances = 0 := by omega
      rw [if_neg hne, max_eq_left (by omega)]
    · exact List.mem_append_right _ (List.mem_singleton.mpr rfl)

/-- C20: with the parsed value `chances = INT_MAX = 2147483647` the claim gives
`max(chances, 0) = 2147483647` attempts, but the loop of `main` never stops offering
attempts when none wins (here: answer 0 0 0 0, every guess 9 9 9 9): no amount of fuel lets
the game end. The test `i <= chances` cannot fail for a 32-bit `i`. -/
theorem main_game_int_max_unbounded_attempts :
    ¬ ∃ (fuel : Nat) (g : Game),
      main_game (bufOf [48, 48, 48, 48]) 2147483647 (fun _ => bufOf [57, 57, 57, 57]) fuel =
        some g := by
  rintro ⟨fuel, g, h⟩
  have hl := main_loop_int_max (bufOf [48, 48, 48, 48]) (fun _ => bufOf [57, 57, 57, 57])
    (fun _ => (by decide : print_test (bufOf [57, 57, 57, 57]) (bufOf [48, 48, 48, 48]) = 0))
    fuel { i := 1, done := 0, n := 0, out := [] } rfl (by decide)
  unfold main_game at h
  have hne : ¬ ((2147483647 : Int) = 0) := by decide
  simp only [if_neg hne] at h
  rw [hl] at h
  exact absurd h (by simp)

/-! ## Exit status -/

theorem init_term_tty (ICANON ECHO : Nat) (tios0 : termios) (g : Globals) (a : termios)
    (h : g.fd0 = Fd0.tty a) :
    (init_term ICANON ECHO tios0 g).fd0 =
      Fd0.tty { a with c_lflag := a.c_lflag &&& (4294967295 - (ICANON ||| ECHO)) } ∧
    (init_term ICANON ECHO tios0 g).isterm = 1 ∧
    (init_term ICANON ECHO tios0 g).saved_tios = a := by
  unfold init_term
  simp only [h]
  by_cases hc : g.colormode = 97 <;> simp [tcsetattr, h, hc]

theorem init_term_not_tty (ICANON ECHO : Nat) (tios0 : termios) (g : Globals)
    (h0 : g.isterm = 0) (h : ∀ a, g.fd0 ≠ Fd0.tty a) :
    (init_term ICANON ECHO tios0 g).fd0 = g.fd0 ∧
    (init_term ICANON ECHO tios0 g).isterm = 0 ∧
    (init_term ICANON ECHO tios0 g).tcsets = g.tcsets := by
  unfold init_term
  cases hfd : g.fd0 with
  | tty a => exact absurd hfd (h a)
  | notty => by_cases hc : g.colormode = 97 <;> simp [h0, hc, hfd]
  | error => by_cases hc : g.colormode = 97 <;> simp [h0, hc, hfd]

theorem testBit_clear_mask (x m : Nat) (hm : m < 4294967296) (i : Nat) (hi : i < 32) :
    (x &&& (4294967295 - m)).testBit i = (x.testBit i && !m.testBit i) := by
  have h32 : (4294967295 : Nat) - m = 2 ^ 32 - (m + 1) := by
    norm_num
    omega
  have hm2 : m < 2 ^ 32 := by
    norm_num
    exact hm
  rw [Nat.testBit_and, h32, Nat.testBit_two_pow_sub_succ hm2]
  simp [hi]

/-- C15: from the start state (`isterm = 0`). If file descriptor 0 is a terminal with
attributes `a`, then after `init_term` the attributes are `a` except for the word `c_lflag`,
in which exactly the bits of `ICANON` and `ECHO` are cleared and every other bit is kept, and
after `exit_term` they are `a` again. If it is not a terminal (`tcgetattr` fails),
`init_term` and `exit_term` leave it as it is and never call `tcsetattr`. -/
theorem init_exit_term_attrs (ICANON ECHO : Nat) (tios0 : termios) (g : Globals)
    (h0 : g.isterm = 0) (hI : ICANON < 4294967296) (hE : ECHO < 4294967296) :
    (∀ a : termios, g.fd0 = Fd0.tty a →
      ∃ a1 : termios, (init_term ICANON ECHO tios0 g).fd0 = Fd0.tty a1 ∧
        a1.c_iflag = a.c_iflag ∧ a1.c_oflag = a.c_oflag ∧ a1.c_cflag = a.c_cflag ∧
        a1.c_cc = a.c_cc ∧
        (∀ i : Nat, i < 32 →
          a1.c_lflag.testBit i =
            (a.c_lflag.testBit i && !(ICANON.testBit i || ECHO.testBit i))) ∧
        (exit_term (init_term ICANON ECHO tios0 g)).fd0 = Fd0.tty a) ∧
    ((∀ a : termios, g.fd0 ≠ Fd0.tty a) →
      (init_term ICANON ECHO tios0 g).fd0 = g.fd0 ∧
      (exit_term (init_term ICANON ECHO tios0 g)).fd0 = g.fd0 ∧
      (exit_term (init_term ICANON ECHO tios0 g)).tcsets = g.tcsets) := by
  constructor
  · intro a ha
    obtain ⟨h1, h2, h3⟩ := init_term_tty ICANON ECHO tios0 g a ha
    refine ⟨_, h1, rfl, rfl, rfl, rfl, ?_, ?_⟩
    · intro i hi
      have hm : ICANON ||| ECHO < 4294967296 := by
        have := @Nat.or_lt_two_pow ICANON ECHO 32 (by norm_num; exact hI) (by norm_num; exact hE)
        norm_num at this
        exact this
      show (a.c_lflag &&& (4294967295 - (ICANON ||| ECHO))).testBit i = _
      rw [testBit_clear_mask _ _ hm i hi, Nat.testBit_or]
    · unfold exit_term
      rw [if_pos (by rw [h2]; decide)]
      simp [tcsetattr, h1, h3]
  · intro hn
    obtain ⟨h1, h2, h3⟩ := init_term_not_tty ICANON ECHO tios0 g h0 hn
    refine ⟨h1, ?_, ?_⟩
    · unfold exit_term
      rw [if_neg (by rw [h2]; decide), h1]
    · unfold exit_term
      rw [if_neg (by rw [h2]; decide), h3]

/-- Witness of C15: a terminal whose `c_lflag` is 35387, with `ICANON = 2` and `ECHO = 8`:
`init_term` leaves 35377 and `exit_term` puts 35387 back. -/
theorem init_exit_term_attrs_witness :
    (init_term 2 8 { c_iflag := 0, c_oflag := 0, c_cflag := 0, c_lflag := 0, c_cc := [] }
      (Globals.initial
        (Fd0.tty { c_iflag := 1, c_oflag := 5, c_cflag := 191, c_lflag := 35387,
                   c_cc := [3, 28, 127, 21] }))).fd0 =
      Fd0.tty { c_iflag := 1, c_oflag := 5, c_cflag := 191, c_lflag := 35377,
                c_cc := [3, 28, 127, 21] } ∧
    (∃ a1 : termios,
      (init_term 2 8 { c_iflag := 0, c_oflag := 0, c_cflag := 0, c_lflag := 0, c_cc := [] }
        (Globals.initial
          (Fd0.tty { c_iflag := 1, c_oflag := 5, c_cflag := 191, c_lflag := 35387,
                     c_cc := [3, 28, 127, 21] }))).fd0 = Fd0.tty a1 ∧
      a1.c_iflag = 1 ∧ a1.c_oflag = 5 ∧ a1.c_cflag = 191 ∧ a1.c_cc = [3, 28, 127, 21] ∧
      (∀ i : Nat, i < 32 →
        a1.c_lflag.testBit i =
          ((35387 : Nat).testBit i && !((2 : Nat).testBit i || (8 : Nat).testBit i))) ∧
      (exit_term
        (init_term 2 8 { c_iflag := 0, c_oflag := 0, c_cflag := 0, c_lflag := 0, c_cc := [] }
          (Globals.initial
            (Fd0.tty { c_iflag := 1, c_oflag := 5, c_cflag := 191, c_lflag := 35387,
                       c_cc := [3, 28, 127, 21] })))).fd0 =
        Fd0.tty { c_iflag := 1, c_oflag := 5, c_cflag := 191, c_lflag := 35387,
                  c_cc := [3, 28, 127, 21] }) :=
  ⟨by decide,
   (init_exit_term_attrs 2 8 { c_iflag := 0, c_oflag := 0, c_cflag := 0, c_lflag := 0, c_cc := [] }
      (Globals.initial
        (Fd0.tty { c_iflag := 1, c_oflag := 5, c_cflag := 191, c_lflag := 35387,
                   c_cc := [3, 28, 127, 21] }))
      rfl (by decide) (by decide)).1 _ rfl⟩

/-! ## get_choice against the editor of the specification -/

theorem logical_eq (e : Editor) (n : Nat) (h : e.pos = (n : Int)) :
    e.logical = (List.range n).map (fun (k : Nat) => e.choice (k : Int)) := by
  unfold Editor.logical
  rw [h, Int.toNat_ofNat]

theorem logical_length (e : Editor) : e.logical.length = e.pos.toNat := by
  simp [Editor.logical]

theorem get_choice_step_digit (ch : Int) (e : Editor) (h1 : 48 ≤ ch) (h2 : ch ≤ 57)
    (hp : e.pos < 4) :
    get_choice_step ch e =
      ({ choice := Function.update e.choice e.pos ch, pos := e.pos + 1,
         out := e.out ++ [ch, 32] }, false) := by
  have hv : is_valid (toChar ch) = true ∧ e.pos < (NCHARS : Int) :=
    ⟨(is_valid_toChar_of_byte ch (by omega) (by omega)).mpr ⟨h1, h2⟩, hp⟩
  unfold get_choice_step
  rw [if_pos hv, toChar_of_valid_byte ch h1 h2]
  have hm : ch % 256 = ch := by omega
  simp [putchar, hm]

theorem get_choice_step_newline (ch : Int) (e : Editor) (h : ch = 10 ∨ ch = 13) :
    get_choice_step ch e = (e, decide (e.pos = (NCHARS : Int))) := by
  have hv : ¬ (is_valid (toChar ch) = true ∧ e.pos < (NCHARS : Int)) := by
    intro hh
    have := (is_valid_toChar_of_byte ch (by omega) (by omega)).mp hh.1
    omega
  unfold get_choice_step
  rw [if_neg hv, if_pos h]

theorem get_choice_step_other (ch : Int) (e : Editor)
    (hlo : -1 ≤ ch) (hhi : ch ≤ 255)
    (hdigit : ¬ ((48 ≤ ch ∧ ch ≤ 57) ∧ e.pos < 4))
    (hnl : ¬ (ch = 10 ∨ ch = 13))
    (hdel : ¬ (ch = 127 ∧ e.pos ≠ 0))
    (hkill : ¬ (ch = 21 ∧ e.pos ≠ 0)) :
    get_choice_step ch e = (e, false) := by
  unfold get_choice_step
  have hv : ¬ (is_valid (toChar ch) = true ∧ e.pos < (NCHARS : Int)) := by
    rw [is_valid_toChar_of_byte ch hlo hhi]
    exact hdigit
  rw [if_neg hv, if_neg hnl]
  by_cases hc : iscntrl ch = true
  · rw [if_pos hc, if_neg hdel, if_neg hkill]
  · rw [if_neg hc]

theorem map_range_update (choice : Buf) (n : Nat) (v : Int) :
    (List.range n).map (fun (k : Nat) => Function.update choice (n : Int) v (k : Int)) =
      (List.range n).map (fun (k : Nat) => choice (k : Int)) := by
  apply List.map_congr_left
  intro k hk
  have hlt : k < n := List.mem_range.mp hk
  have hne : (k : Int) ≠ (n : Int) := by omega
  simp only [Function.update_noteq hne]

theorem map_range_dropLast (f : Nat → Int) (n : Nat) :
    ((List.range (n + 1)).map f).dropLast = (List.range n).map f := by
  rw [List.range_succ, List.map_append, List.map_singleton, List.dropLast_concat]

/-- One iteration of the loop of `get_choice`, on a byte or `EOF` and with `0 ≤ pos ≤ 4`,
acts on the logical buffer as the transition of the specification, leaves the loop exactly
on a newline or carriage return with 4 symbols held, and keeps `0 ≤ pos ≤ 4`. -/
theorem get_choice_step_refines (ch : Int) (e : Editor) (hlo : -1 ≤ ch) (hhi : ch ≤ 255)
    (h0 : 0 ≤ e.pos) (h4 : e.pos ≤ 4) :
    (get_choice_step ch e).1.logical = editor_spec_step e.logical ch ∧
    ((get_choice_step ch e).2 = true ↔ (ch = 10 ∨ ch = 13) ∧ e.logical.length = 4) ∧
    0 ≤ (get_choice_step ch e).1.pos ∧ (get_choice_step ch e).1.pos ≤ 4 := by
  obtain ⟨n, hn⟩ : ∃ n : Nat, e.pos = (n : Int) := ⟨e.pos.toNat, (Int.toNat_of_nonneg h0).symm⟩
  have hlen : e.logical.length = n := by rw [logical_length, hn, Int.toNat_ofNat]
  have hn4 : n ≤ 4 := by omega
  by_cases hd : 48 ≤ ch ∧ ch ≤ 57
  · by_cases hp : e.pos < 4
    · rw [get_choice_step_digit ch e hd.1 hd.2 hp]
      refine ⟨?_, ?_, by simp only; omega, by simp only; omega⟩
      · have hpos : (Editor.mk (Function.update e.choice e.pos ch) (e.pos + 1)
            (e.out ++ [ch, 32])).pos = ((n + 1 : Nat) : Int) := by
          simp only
          rw [hn]
          push_cast
          rfl
        rw [logical_eq _ (n + 1) hpos, logical_eq e n hn]
        unfold editor_spec_step
        rw [if_pos hd, if_pos (by rw [List.length_map, List.length_range]; omega)]
        simp only
        rw [List.range_succ, List.map_append, List.map_singleton, hn,
          map_range_update, Function.update_same]
      · simp only [Bool.false_eq_true, false_iff, not_and]
        intro hnl
        omega
    · rw [get_choice_step_other ch e hlo hhi (fun h => hp h.2) (by omega) (by omega) (by omega)]
      refine ⟨?_, ?_, h0, h4⟩
      · unfold editor_spec_step
        rw [if_pos hd, if_neg (by rw [hlen]; omega)]
      · simp only [Bool.false_eq_true, false_iff, not_and]
        intro hnl
        omega
  · by_cases hnl : ch = 10 ∨ ch = 13
    · rw [get_choice_step_newline ch e hnl]
      refine ⟨?_, ?_, h0, h4⟩
      · unfold editor_spec_step
        rw [if_neg hd, if_neg (by omega), if_neg (by omega)]
      · simp only [decide_eq_true_eq, hnl, true_and, hlen]
        have hN : (NCHARS : Int) = 4 := rfl
        rw [hN, hn]
        omega
    · by_cases hdel : ch = 127
      · subst hdel
        by_cases hp : e.pos = 0
        · rw [get_choice_step_other 127 e hlo hhi (fun h => hd h.1) hnl (fun h => h.2 hp)
            (fun h => h.2 hp)]
          refine ⟨?_, ?_, h0, h4⟩
          · have hz : n = 0 := by omega
            unfold editor_spec_step
            rw [if_neg hd, if_pos rfl, logical_eq e n hn, hz]
            rfl
          · simp only [Bool.false_eq_true, false_iff, not_and]
            intro h
            exact absurd h hnl
        · rw [get_choice_step_del e hp]
          obtain ⟨m, rfl⟩ : ∃ m, n = m + 1 := ⟨n - 1, by omega⟩
          refine ⟨?_, ?_, by simp only; omega, by simp only; omega⟩
          · have hpos : ({ e with out := choice_back 1 e.out, pos := e.pos - 1 } : Editor).pos
                = (m : Int) := by
              simp only
              rw [hn]
              push_cast
              ring
            rw [logical_eq _ m hpos, logical_eq e (m + 1) hn]
            unfold editor_spec_step
            rw [if_neg hd, if_pos rfl, map_range_dropLast]
          · simp only [Bool.false_eq_true, false_iff, not_and]
            intro h
            exact absurd h hnl
      · by_cases hkill : ch = 21
        · subst hkill
          by_cases hp : e.pos = 0
          · rw [get_choice_step_other 21 e hlo hhi (fun h => hd h.1) hnl (fun h => h.2 hp)
              (fun h => h.2 hp)]
            refine ⟨?_, ?_, h0, h4⟩
            · have hz : n = 0 := by omega
              unfold editor_spec_step
              rw [if_neg hd, if_neg hdel, if_pos rfl, logical_eq e n hn, hz]
              rfl
            · simp only [Bool.false_eq_true, false_iff, not_and]
              intro h
              exact absurd h hnl
          · rw [get_choice_step_kill e hp]
            refine ⟨?_, ?_, by simp, by simp⟩
            · unfold editor_spec_step
              rw [if_neg hd, if_neg hdel, if_pos rfl]
              rfl
            · simp only [Bool.false_eq_true, false_iff, not_and]
              intro h
              exact absurd h hnl
        · rw [get_choice_step_other ch e hlo hhi (fun h => hd h.1) hnl (fun h => hdel h.1)
            (fun h => hkill h.1)]
          refine ⟨?_, ?_, h0, h4⟩
          · unfold editor_spec_step
            rw [if_neg hd, if_neg hdel, if_neg hkill]
          · simp only [Bool.false_eq_true, false_iff, not_and]
            intro h
            exact absurd h hnl

theorem keys_read_succ (stdin : Nat → Int) (rd n : Nat) :
    keys_read stdin rd (n + 1) = stdin rd :: keys_read stdin (rd + 1) n := by
  unfold keys_read
  rw [List.range_succ_eq_map, List.map_cons, List.map_map]
  refine congrArg₂ _ rfl (List.map_congr_left ?_)
  intro k _
  show stdin (rd + (k + 1)) = stdin (rd + 1 + k)
  rw [Nat.add_right_comm, Nat.add_assoc]

theorem get_choice_loop_succ (stdin : Nat → Int) (fuel rd : Nat) (e : Editor) :
    get_choice_loop stdin (fuel + 1) rd e =
      if (get_choice_step (stdin rd) e).2 = true then
        some ((get_choice_step (stdin rd) e).1, rd + 1)
      else get_choice_loop stdin fuel (rd + 1) (get_choice_step (stdin rd) e).1 := rfl

/-- While no newline or carriage return has come with 4 symbols held, the loop of
`get_choice` has not returned, its state is the loop body run on the characters read, and
its logical buffer is the fold of the transitions of the specification. -/
theorem get_choice_loop_run (stdin : Nat → Int) (hbyte : ∀ k, -1 ≤ stdin k ∧ stdin k ≤ 255)
    (n : Nat) :
    ∀ (rd : Nat) (e : Editor), 0 ≤ e.pos → e.pos ≤ 4 →
      (∀ m : Nat, m < n →
        ¬ ((stdin (rd + m) = 10 ∨ stdin (rd + m) = 13) ∧
          ((keys_read stdin rd m).foldl editor_spec_step e.logical).length = 4)) →
      (∀ fuel : Nat, fuel ≤ n → get_choice_loop stdin fuel rd e = none) ∧
      (∀ fuel : Nat, get_choice_loop stdin (n + fuel) rd e =
        get_choice_loop stdin fuel (rd + n) (feed_keys (keys_read stdin rd n) e)) ∧
      (feed_keys (keys_read stdin rd n) e).logical =
        (keys_read stdin rd n).foldl editor_spec_step e.logical ∧
      0 ≤ (feed_keys (keys_read stdin rd n) e).pos ∧
      (feed_keys (keys_read stdin rd n) e).pos ≤ 4 := by
  induction n with
  | zero =>
    intro rd e h0 h4 _
    refine ⟨?_, ?_, rfl, h0, h4⟩
    · intro fuel hf
      obtain rfl : fuel = 0 := by omega
      rfl
    · intro fuel
      rw [Nat.zero_add]
      rfl
  | succ n ih =>
    intro rd e h0 h4 hno
    obtain ⟨hlog, hbrk, hp0, hp4⟩ :=
      get_choice_step_refines (stdin rd) e (hbyte rd).1 (hbyte rd).2 h0 h4
    have hnb : ¬ (get_choice_step (stdin rd) e).2 = true := by
      intro hb
      exact hno 0 (Nat.succ_pos n) (hbrk.mp hb)
    have hno1 : ∀ m : Nat, m < n →
        ¬ ((stdin (rd + 1 + m) = 10 ∨ stdin (rd + 1 + m) = 13) ∧
          ((keys_read stdin (rd + 1) m).foldl editor_spec_step
            (get_choice_step (stdin rd) e).1.logical).length = 4) := by
      intro m hm
      have h := hno (m + 1) (by omega)
      rw [keys_read_succ, List.foldl_cons, ← hlog] at h
      rw [show rd + 1 + m = rd + (m + 1) by omega]
      exact h
    obtain ⟨i1, i2, i3, i4, i5⟩ := ih (rd + 1) (get_choice_step (stdin rd) e).1 hp0 hp4 hno1
    have hfeed : feed_keys (keys_read stdin rd (n + 1)) e =
        feed_keys (keys_read stdin (rd + 1) n) (get_choice_step (stdin rd) e).1 := by
      rw [keys_read_succ, feed_keys_cons]
    refine ⟨?_, ?_, ?_, ?_, ?_⟩
    · intro fuel hf
      rcases fuel with _ | f
      · rfl
      · rw [get_choice_loop_succ, if_neg hnb]
        exact i1 f (by omega)
    · intro fuel
      rw [show n + 1 + fuel = (n + fuel) + 1 by omega, get_choice_loop_succ, if_neg hnb, i2 fuel,
        hfeed, show rd + 1 + n = rd + (n + 1) by omega]
    · rw [hfeed, i3, keys_read_succ, List.foldl_cons, hlog]
    · rw [hfeed]
      exact i4
    · rw [hfeed]
      exact i5

theorem feed_keys_refines (keys : List Int) :
    ∀ e : Editor, (∀ ch ∈ keys, -1 ≤ ch ∧ ch ≤ 255) → 0 ≤ e.pos → e.pos ≤ 4 →
      (feed_keys keys e).logical = keys.foldl editor_spec_step e.logical ∧
      0 ≤ (feed_keys keys e).pos ∧ (feed_keys keys e).pos ≤ 4 := by
  induction keys with
  | nil =>
    intro e _ h0 h4
    exact ⟨rfl, h0, h4⟩
  | cons ch rest ih =>
    intro e hb h0 h4
    obtain ⟨hlog, _, hp0, hp4⟩ := get_choice_step_refines ch e
      (hb ch (List.mem_cons_self ch rest)).1 (hb ch (List.mem_cons_self ch rest)).2 h0 h4
    obtain ⟨r1, r2, r3⟩ := ih (get_choice_step ch e).1
      (fun c hc => hb c (List.mem_cons_of_mem ch hc)) hp0 hp4
    rw [feed_keys_cons, List.foldl_cons, ← hlog]
    exact ⟨r1, r2, r3⟩

/-- C16: `get_choice` refines the editor of the specification, for input streams of bytes
and `EOF`. (1) After any finite sequence of keystrokes run through the loop body from
`pos = 0`, the logical buffer `choice[0 .. pos - 1]` is the fold of the transitions of the
specification over the keystrokes, from the empty list. (2) If the character number `n` is
the first newline or carriage return read while that list has length 4, `get_choice` has not
returned with fuel for `n` characters or fewer, and with more fuel it returns right after
reading that character, with that list as its buffer. (3) If there is no such character, in
particular when the input ends first, `get_choice` does not return, whatever the fuel. -/
theorem get_choice_refines_spec (stdin : Nat → Int)
    (hbyte : ∀ k, -1 ≤ stdin k ∧ stdin k ≤ 255) (rd : Nat) (choice : Buf) (out : List Int) :
    (∀ keys : List Int, (∀ ch ∈ keys, -1 ≤ ch ∧ ch ≤ 255) →
      (feed_keys keys { choice := choice, pos := 0, out := out }).logical =
        keys.foldl editor_spec_step []) ∧
    (∀ n : Nat, (stdin (rd + n) = 10 ∨ stdin (rd + n) = 13) →
      ((keys_read stdin rd n).foldl editor_spec_step []).length = 4 →
      (∀ m : Nat, m < n →
        ¬ ((stdin (rd + m) = 10 ∨ stdin (rd + m) = 13) ∧
          ((keys_read stdin rd m).foldl editor_spec_step []).length = 4)) →
      (∀ fuel : Nat, fuel ≤ n → get_choice stdin fuel rd choice out = none) ∧
      (∀ fuel : Nat, n < fuel →
        ∃ e : Editor, get_choice stdin fuel rd choice out = some (e, rd + n + 1) ∧
          e = feed_keys (keys_read stdin rd n) { choice := choice, pos := 0, out := out } ∧
          e.logical = (keys_read stdin rd n).foldl editor_spec_step [] ∧
          e.pos = 4)) ∧
    ((∀ n : Nat,
        ¬ ((stdin (rd + n) = 10 ∨ stdin (rd + n) = 13) ∧
          ((keys_read stdin rd n).foldl editor_spec_step []).length = 4)) →
      ∀ fuel : Nat, get_choice stdin fuel rd choice out = none) := by
  have hl0 : ({ choice := choice, pos := 0, out := out } : Editor).logical = [] := rfl
  have h04 : (0 : Int) ≤ 4 := by decide
  refine ⟨?_, ?_, ?_⟩
  · intro keys hk
    have h := (feed_keys_refines keys { choice := choice, pos := 0, out := out } hk
      (le_refl _) h04).1
    rw [hl0] at h
    exact h
  · intro n hnl hlen hfirst
    obtain ⟨r1, r2, r3, r4, r5⟩ := get_choice_loop_run stdin hbyte n rd
      { choice := choice, pos := 0, out := out } (le_refl _) h04
      (by rw [hl0]; exact hfirst)
    rw [hl0] at r3
    refine ⟨fun fuel hf => r1 fuel hf, ?_⟩
    intro fuel hf
    obtain ⟨f, rfl⟩ : ∃ f, fuel = n + (f + 1) := ⟨fuel - n - 1, by omega⟩
    have hbrk := (get_choice_step_refines (stdin (rd + n))
      (feed_keys (keys_read stdin rd n) { choice := choice, pos := 0, out := out })
      (hbyte _).1 (hbyte _).2 r4 r5).2.1
    have hb : (get_choice_step (stdin (rd + n))
        (feed_keys (keys_read stdin rd n) { choice := choice, pos := 0, out := out })).2
          = true := hbrk.mpr ⟨hnl, by rw [r3]; exact hlen⟩
    have hsame := (get_choice_step_break _ _ hb).2.2
    have hpos := (get_choice_step_break _ _ hb).2.1
    refine ⟨_, ?_, rfl, r3, hpos⟩
    unfold get_choice
    rw [r2 (f + 1), get_choice_loop_succ, if_pos hb, hsame]
  · intro hnone fuel
    obtain ⟨r1, _⟩ := get_choice_loop_run stdin hbyte fuel rd
      { choice := choice, pos := 0, out := out } (le_refl _) h04
      (by rw [hl0]; exact fun m _ => hnone m)
    exact r1 fuel (le_refl _)

/-- Witness of C16: on the stream `2 2 2 2` followed by newlines, the first newline
(character number 4) is read with 4 symbols held: `get_choice` returns after 5 characters
with the buffer 2 2 2 2, and not with fuel for 4 characters only. -/
theorem get_choice_refines_spec_witness :
    get_choice (fun k => if k < 4 then 50 else 10) 4 0 (bufOf []) [] = none ∧
    ∃ e : Editor,
      get_choice (fun k => if k < 4 then 50 else 10) 5 0 (bufOf []) [] = some (e, 0 + 4 + 1) ∧
      e = feed_keys (keys_read (fun k => if k < 4 then 50 else 10) 0 4)
        { choice := bufOf [], pos := 0, out := [] } ∧
      e.logical = (keys_read (fun k => if k < 4 then 50 else 10) 0 4).foldl editor_spec_step [] ∧
      e.pos = 4 :=
  ⟨((get_choice_refines_spec (fun k => if k < 4 then 50 else 10)
      (fun k => by by_cases h : k < 4 <;> simp [h]) 0 (bufOf []) []).2.1 4
      (by decide) (by decide) (by decide)).1 4 (le_refl 4),
   ((get_choice_refines_spec (fun k => if k < 4 then 50 else 10)
      (fun k => by by_cases h : k < 4 <;> simp [h]) 0 (bufOf []) []).2.1 4
      (by decide) (by decide) (by decide)).2 5 (by decide)⟩

/-! ## Safety of the buffer accesses -/

/-- One iteration of the loop either leaves the memory behind `choice` as it is, or does the
one store `choice[pos] = ch`, and then `pos < NCHARS`. -/
theorem get_choice_step_store (ch : Int) (e : Editor) :
    (get_choice_step ch e).1.choice = e.choice ∨
    (e.pos < (NCHARS : Int) ∧ is_valid (toChar ch) = true ∧
      (get_choice_step ch e).1.choice = Function.update e.choice e.pos (toChar ch)) := by
  unfold get_choice_step
  by_cases hv : is_valid (toChar ch) = true ∧ e.pos < (NCHARS : Int)
  · rw [if_pos hv]
    exact Or.inr ⟨hv.2, hv.1, rfl⟩
  · rw [if_neg hv]
    refine Or.inl ?_
    by_cases hnl : ch = 10 ∨ ch = 13
    · rw [if_pos hnl]
    · rw [if_neg hnl]
      by_cases hc : iscntrl ch = true
      · rw [if_pos hc]
        by_cases h1 : ch = 127 ∧ e.pos ≠ 0
        · rw [if_pos h1]
        · rw [if_neg h1]
          by_cases h2 : ch = 21 ∧ e.pos ≠ 0
          · rw [if_pos h2]
          · rw [if_neg h2]
      · rw [if_neg hc]

theorem feed_keys_safe (choice0 : Buf) (keys : List Int) :
    ∀ e : Editor, 0 ≤ e.pos → e.pos ≤ (NCHARS : Int) →
      (∀ i : Int, 0 ≤ i → i < e.pos → 48 ≤ e.choice i ∧ e.choice i ≤ 57) →
      (∀ i : Int, (i < 0 ∨ (NCHARS : Int) ≤ i) → e.choice i = choice0 i) →
      0 ≤ (feed_keys keys e).pos ∧ (feed_keys keys e).pos ≤ (NCHARS : Int) ∧
      (∀ i : Int, 0 ≤ i → i < (feed_keys keys e).pos →
        48 ≤ (feed_keys keys e).choice i ∧ (feed_keys keys e).choice i ≤ 57) ∧
      (∀ i : Int, (i < 0 ∨ (NCHARS : Int) ≤ i) → (feed_keys keys e).choice i = choice0 i) := by
  induction keys with
  | nil =>
    intro e h0 h4 hd hout
    exact ⟨h0, h4, hd, hout⟩
  | cons ch rest ih =>
    intro e h0 h4 hd hout
    obtain ⟨s0, s4, sd⟩ := get_choice_step_inv ch e h0 h4 hd
    rw [feed_keys_cons]
    refine ih (get_choice_step ch e).1 s0 s4 sd ?_
    intro i hi
    rcases get_choice_step_store ch e with hsame | ⟨hlt, _, hupd⟩
    · rw [hsame]
      exact hout i hi
    · rw [hupd, Function.update_noteq (by omega)]
      exact hout i hi

/-- C17: after any sequence of keystrokes run through the loop of `get_choice` from
`pos = 0`, the counter satisfies `0 ≤ pos ≤ 4`; the next iteration, on any character, either
does not write to the buffer or does the single store `choice[pos] = ch` with
`0 ≤ pos < 4`; and the memory outside `choice[0 .. 3]` is as it was before the call. -/
theorem get_choice_in_bounds (keys : List Int) (choice : Buf) (out : List Int) :
    0 ≤ (feed_keys keys { choice := choice, pos := 0, out := out }).pos ∧
    (feed_keys keys { choice := choice, pos := 0, out := out }).pos ≤ 4 ∧
    (∀ ch : Int,
      (get_choice_step ch (feed_keys keys { choice := choice, pos := 0, out := out })).1.choice =
        (feed_keys keys { choice := choice, pos := 0, out := out }).choice ∨
      (0 ≤ (feed_keys keys { choice := choice, pos := 0, out := out }).pos ∧
       (feed_keys keys { choice := choice, pos := 0, out := out }).pos < 4 ∧
       (get_choice_step ch (feed_keys keys { choice := choice, pos := 0, out := out })).1.choice =
        Function.update (feed_keys keys { choice := choice, pos := 0, out := out }).choice
          (feed_keys keys { choice := choice, pos := 0, out := out }).pos (toChar ch))) ∧
    (∀ i : Int, (i < 0 ∨ 4 ≤ i) →
      (feed_keys keys { choice := choice, pos := 0, out := out }).choice i = choice i) := by
  have hN : (0 : Int) ≤ (NCHARS : Int) := by decide
  obtain ⟨h0, h4, _, hout⟩ := feed_keys_safe choice keys
    { choice := choice, pos := 0, out := out } (le_refl _) hN
    (fun i hi0 hi => by
      have : i < 0 := hi
      omega)
    (fun _ _ => rfl)
  refine ⟨h0, h4, ?_, hout⟩
  intro ch
  rcases get_choice_step_store ch (feed_keys keys { choice := choice, pos := 0, out := out })
    with hsame | ⟨hlt, _, hupd⟩
  · exact Or.inl hsame
  · exact Or.inr ⟨h0, hlt, hupd⟩

/-- Witness of C17: after the six keys `1 2 3 4 5 6` the counter is 4, and the bytes before
and after the buffer are untouched. -/
theorem get_choice_in_bounds_witness :
    (feed_keys [49, 50, 51, 52, 53, 54] { choice := bufOf [], pos := 0, out := [] }).pos ≤ 4 ∧
    (feed_keys [49, 50, 51, 52, 53, 54] { choice := bufOf [], pos := 0, out := [] }).choice 4
      = bufOf [] 4 ∧
    (feed_keys [49, 50, 51, 52, 53, 54] { choice := bufOf [], pos := 0, out := [] }).choice (-1)
      = bufOf [] (-1) :=
  ⟨(get_choice_in_bounds [49, 50, 51, 52, 53, 54] (bufOf []) []).2.1,
   (get_choice_in_bounds [49, 50, 51, 52, 53, 54] (bufOf []) []).2.2.2 4 (by decide),
   (get_choice_in_bounds [49, 50, 51, 52, 53, 54] (bufOf []) []).2.2.2 (-1) (by decide)⟩

/-! ## Independence from the previous content of the buffer -/

theorem get_choice_step_congr (ch : Int) (e1 e2 : Editor) (hp : e1.pos = e2.pos)
    (ho : e1.out = e2.out) :
    (get_choice_step ch e1).2 = (get_choice_step ch e2).2 ∧
    (get_choice_step ch e1).1.pos = (get_choice_step ch e2).1.pos ∧
    (get_choice_step ch e1).1.out = (get_choice_step ch e2).1.out := by
  unfold get_choice_step
  rw [hp, ho]
  by_cases hv : is_valid (toChar ch) = true ∧ e2.pos < (NCHARS : Int)
  · rw [if_pos hv, if_pos hv]
    exact ⟨rfl, rfl, rfl⟩
  · rw [if_neg hv, if_neg hv]
    by_cases hnl : ch = 10 ∨ ch = 13
    · rw [if_pos hnl, if_pos hnl]
      exact ⟨rfl, hp, ho⟩
    · rw [if_neg hnl, if_neg hnl]
      by_cases hc : iscntrl ch = true
      · rw [if_pos hc, if_pos hc]
        by_cases h1 : ch = 127 ∧ e2.pos ≠ 0
        · rw [if_pos h1, if_pos h1]
          exact ⟨rfl, by simp only [hp], by simp only [ho]⟩
        · rw [if_neg h1, if_neg h1]
          by_cases h2 : ch = 21 ∧ e2.pos ≠ 0
          · rw [if_pos h2, if_pos h2]
            exact ⟨rfl, rfl, by simp only [hp, ho]⟩
          · rw [if_neg h2, if_neg h2]
            exact ⟨rfl, hp, ho⟩
      · rw [if_neg hc, if_neg hc]
        exact ⟨rfl, hp, ho⟩

/-- The relation the loop keeps between two runs on the same input that started on
different buffers: same `pos` and output, and below `pos` the same symbols, each read from
the input since index `rd0`. -/
theorem get_choice_step_related (stdin : Nat → Int)
    (hbyte : ∀ k, -1 ≤ stdin k ∧ stdin k ≤ 255) (rd0 rd : Nat) (hrd : rd0 ≤ rd)
    (e1 e2 : Editor) (hp : e1.pos = e2.pos) (ho : e1.out = e2.out) (h0 : 0 ≤ e1.pos)
    (hsym : ∀ i : Int, 0 ≤ i → i < e1.pos →
      e1.choice i = e2.choice i ∧ ∃ k : Nat, rd0 ≤ k ∧ k < rd ∧ e1.choice i = stdin k) :
    (get_choice_step (stdin rd) e1).2 = (get_choice_step (stdin rd) e2).2 ∧
    (get_choice_step (stdin rd) e1).1.pos = (get_choice_step (stdin rd) e2).1.pos ∧
    (get_choice_step (stdin rd) e1).1.out = (get_choice_step (stdin rd) e2).1.out ∧
    0 ≤ (get_choice_step (stdin rd) e1).1.pos ∧
    (∀ i : Int, 0 ≤ i → i < (get_choice_step (stdin rd) e1).1.pos →
      (get_choice_step (stdin rd) e1).1.choice i = (get_choice_step (stdin rd) e2).1.choice i ∧
      ∃ k : Nat, rd0 ≤ k ∧ k < rd + 1 ∧ (get_choice_step (stdin rd) e1).1.choice i = stdin k) := by
  obtain ⟨c1, c2, c3⟩ := get_choice_step_congr (stdin rd) e1 e2 hp ho
  refine ⟨c1, c2, c3, ?_, ?_⟩
  · by_cases hv : is_valid (toChar (stdin rd)) = true ∧ e1.pos < (NCHARS : Int)
    · unfold get_choice_step
      rw [if_pos hv]
      simp only
      omega
    · unfold get_choice_step
      rw [if_neg hv]
      by_cases hnl : stdin rd = 10 ∨ stdin rd = 13
      · rw [if_pos hnl]
        exact h0
      · rw [if_neg hnl]
        by_cases hc : iscntrl (stdin rd) = true
        · rw [if_pos hc]
          by_cases h1 : stdin rd = 127 ∧ e1.pos ≠ 0
          · rw [if_pos h1]
            have := h1.2
            simp only
            omega
          · rw [if_neg h1]
            by_cases h2 : stdin rd = 21 ∧ e1.pos ≠ 0
            · rw [if_pos h2]
            · rw [if_neg h2]
              exact h0
        · rw [if_neg hc]
          exact h0
  · intro i hi0 hi
    by_cases hv : is_valid (toChar (stdin rd)) = true ∧ e1.pos < (NCHARS : Int)
    · have hv2 : is_valid (toChar (stdin rd)) = true ∧ e2.pos < (NCHARS : Int) := by
        rw [← hp]
        exact hv
      have hdig := (is_valid_toChar_of_byte (stdin rd) (hbyte rd).1 (hbyte rd).2).mp hv.1
      have htc := toChar_of_valid_byte (stdin rd) hdig.1 hdig.2
      have hs1 : (get_choice_step (stdin rd) e1).1 =
          Editor.mk (Function.update e1.choice e1.pos (toChar (stdin rd))) (e1.pos + 1)
            (putchar 32 (putchar (stdin rd) e1.out)) := by
        unfold get_choice_step
        rw [if_pos hv]
      have hs2 : (get_choice_step (stdin rd) e2).1 =
          Editor.mk (Function.update e2.choice e2.pos (toChar (stdin rd))) (e2.pos + 1)
            (putchar 32 (putchar (stdin rd) e2.out)) := by
        unfold get_choice_step
        rw [if_pos hv2]
      rw [hs1] at hi ⊢
      rw [hs2]
      simp only at hi ⊢
      by_cases hip : i = e1.pos
      · rw [hip, Function.update_same, hp, Function.update_same]
        exact ⟨rfl, rd, hrd, Nat.lt_succ_self rd, htc⟩
      · rw [Function.update_noteq hip, Function.update_noteq (by rw [← hp]; exact hip)]
        obtain ⟨a, k, k1, k2, k3⟩ := hsym i hi0 (by omega)
        exact ⟨a, k, k1, by omega, k3⟩
    · have hv2 : ¬ (is_valid (toChar (stdin rd)) = true ∧ e2.pos < (NCHARS : Int)) := by
        rw [← hp]
        exact hv
      have hc1 : (get_choice_step (stdin rd) e1).1.choice = e1.choice := by
        rcases get_choice_step_store (stdin rd) e1 with h | ⟨a, b, _⟩
        · exact h
        · exact absurd ⟨b, a⟩ hv
      have hc2 : (get_choice_step (stdin rd) e2).1.choice = e2.choice := by
        rcases get_choice_step_store (stdin rd) e2 with h | ⟨a, b, _⟩
        · exact h
        · exact absurd ⟨b, a⟩ hv2
      have hle : (get_choice_step (stdin rd) e1).1.pos ≤ e1.pos := by
        unfold get_choice_step
        rw [if_neg hv]
        by_cases hnl : stdin rd = 10 ∨ stdin rd = 13
        · rw [if_pos hnl]
        · rw [if_neg hnl]
          by_cases hc : iscntrl (stdin rd) = true
          · rw [if_pos hc]
            by_cases h1 : stdin rd = 127 ∧ e1.pos ≠ 0
            · rw [if_pos h1]
              simp only
              omega
            · rw [if_neg h1]
              by_cases h2 : stdin rd = 21 ∧ e1.pos ≠ 0
              · rw [if_pos h2]
                exact h0
              · rw [if_neg h2]
          · rw [if_neg hc]
      rw [hc1, hc2]
      obtain ⟨a, k, k1, k2, k3⟩ := hsym i hi0 (by omega)
      exact ⟨a, k, k1, by omega, k3⟩

theorem get_choice_loop_related (stdin : Nat → Int)
    (hbyte : ∀ k, -1 ≤ stdin k ∧ stdin k ≤ 255) (rd0 : Nat) (fuel : Nat) :
    ∀ (rd : Nat) (e1 e2 : Editor), rd0 ≤ rd → e1.pos = e2.pos → e1.out = e2.out →
      0 ≤ e1.pos →
      (∀ i : Int, 0 ≤ i → i < e1.pos →
        e1.choice i = e2.choice i ∧ ∃ k : Nat, rd0 ≤ k ∧ k < rd ∧ e1.choice i = stdin k) →
      (get_choice_loop stdin fuel rd e1 = none ∧ get_choice_loop stdin fuel rd e2 = none) ∨
      ∃ (r1 r2 : Editor) (rd1 : Nat),
        get_choice_loop stdin fuel rd e1 = some (r1, rd1) ∧
        get_choice_loop stdin fuel rd e2 = some (r2, rd1) ∧
        r1.pos = r2.pos ∧ r1.out = r2.out ∧
        ∀ i : Int, 0 ≤ i → i < (NCHARS : Int) →
          r1.choice i = r2.choice i ∧ ∃ k : Nat, rd0 ≤ k ∧ k < rd1 ∧ r1.choice i = stdin k := by
  induction fuel with
  | zero =>
    intro rd e1 e2 _ _ _ _ _
    exact Or.inl ⟨rfl, rfl⟩
  | succ f ih =>
    intro rd e1 e2 hrd hp ho h0 hsym
    obtain ⟨c1, c2, c3, c4, c5⟩ :=
      get_choice_step_related stdin hbyte rd0 rd hrd e1 e2 hp ho h0 hsym
    rw [get_choice_loop_succ, get_choice_loop_succ]
    by_cases hb : (get_choice_step (stdin rd) e1).2 = true
    · have hb2 : (get_choice_step (stdin rd) e2).2 = true := by rw [← c1]; exact hb
      rw [if_pos hb, if_pos hb2]
      refine Or.inr ⟨_, _, _, rfl, rfl, c2, c3, ?_⟩
      obtain ⟨_, hfull, hsame⟩ := get_choice_step_break (stdin rd) e1 hb
      intro i hi0 hi
      exact c5 i hi0 (by rw [hsame, hfull]; exact hi)
    · have hb2 : ¬ (get_choice_step (stdin rd) e2).2 = true := by rw [← c1]; exact hb
      rw [if_neg hb, if_neg hb2]
      exact ih (rd + 1) _ _ (by omega) c2 c3 c4 c5

/-- C18: on the same input (bytes and `EOF`), with the same fuel, `get_choice` started on two
buffers of different previous content either returns in neither run or returns in both, after
the same number of characters, with the same 4 symbols in `choice[0 .. 3]`, the same `pos` and
the same output; and each of the 4 symbols is a character read from the input during the
call. -/
theorem get_choice_ignores_old_buffer (stdin : Nat → Int)
    (hbyte : ∀ k, -1 ≤ stdin k ∧ stdin k ≤ 255) (fuel rd : Nat) (choice1 choice2 : Buf)
    (out : List Int) :
    (get_choice stdin fuel rd choice1 out = none ∧
      get_choice stdin fuel rd choice2 out = none) ∨
    ∃ (r1 r2 : Editor) (rd1 : Nat),
      get_choice stdin fuel rd choice1 out = some (r1, rd1) ∧
      get_choice stdin fuel rd choice2 out = some (r2, rd1) ∧
      r1.pos = r2.pos ∧ r1.out = r2.out ∧
      ∀ i : Int, 0 ≤ i → i < (NCHARS : Int) →
        r1.choice i = r2.choice i ∧ ∃ k : Nat, rd ≤ k ∧ k < rd1 ∧ r1.choice i = stdin k := by
  unfold get_choice
  refine get_choice_loop_related stdin hbyte rd fuel rd _ _ (le_refl rd) rfl rfl (le_refl _) ?_
  intro i hi0 hi
  have : i < 0 := hi
  omega

/-- Witness of C18: the input `2 3 4 0` and a newline, read into a buffer that held
9 9 9 9 and into one that held 1 2 3 4. -/
theorem get_choice_ignores_old_buffer_witness :
    ∃ (r1 r2 : Editor) (rd1 : Nat),
      get_choice (fun k => [50, 51, 52, 48].getD k 10) 5 0 (bufOf [57, 57, 57, 57]) []
        = some (r1, rd1) ∧
      get_choice (fun k => [50, 51, 52, 48].getD k 10) 5 0 (bufOf [49, 50, 51, 52]) []
        = some (r2, rd1) ∧
      r1.pos = r2.pos ∧ r1.out = r2.out ∧
      ∀ i : Int, 0 ≤ i → i < (NCHARS : Int) →
        r1.choice i = r2.choice i ∧
        ∃ k : Nat, 0 ≤ k ∧ k < rd1 ∧ r1.choice i = (fun k => [50, 51, 52, 48].getD k 10) k :=
  (get_choice_ignores_old_buffer (fun k => [50, 51, 52, 48].getD k 10)
    (fun k => by
      show -1 ≤ [50, 51, 52, 48].getD k (10 : Int) ∧ [50, 51, 52, 48].getD k (10 : Int) ≤ 255
      rcases k with _ | _ | _ | _ | _ | k <;> simp)
    5 0 (bufOf [57, 57, 57, 57]) (bufOf [49, 50, 51, 52]) []).resolve_left
    (fun h => absurd h.1 (by
      have : (get_choice (fun k => [50, 51, 52, 48].getD k 10) 5 0
          (bufOf [57, 57, 57, 57]) []).isSome = true := by decide
      intro hn
      rw [hn] at this
      exact absurd this (by decide)))

/-! ## The echo on the terminal -/

theorem echo_text_length (choice : Buf) (n : Nat) : (echo_text choice n).length = 2 * n := by
  induction n with
  | zero => rfl
  | succ m ih =>
    rw [echo_text, List.length_append, ih]
    simp only [List.length_cons, List.length_nil]
    omega

theorem echo_text_update (choice : Buf) (n : Nat) (v : Int) (m : Nat) (hm : m ≤ n) :
    echo_text (Function.update choice (n : Int) v) m = echo_text choice m := by
  induction m with
  | zero => rfl
  | succ k ih =>
    have hne : (k : Int) ≠ (n : Int) := by omega
    rw [echo_text, echo_text, ih (by omega), Function.update_noteq hne]

theorem term_byte_write (t : Term) (b : Int) (hesc : t.esc = 0) (h27 : b ≠ 27) (h8 : b ≠ 8)
    (hcol : t.col = t.line.length) :
    term_byte t b = { line := t.line ++ [b], col := t.col + 1, esc := 0 } := by
  unfold term_byte
  rw [if_neg (by rw [hesc]; decide), if_neg (by rw [hesc]; decide), if_neg h27, if_neg h8]
  simp [hcol, hesc]

theorem term_run_echo_pair (t : Term) (out : List Int) (c : Int) (h1 : 48 ≤ c) (h2 : c ≤ 57)
    (hesc : (term_run t out).esc = 0) (hcol : (term_run t out).col = (term_run t out).line.length) :
    term_run t (out ++ [c] ++ [32]) =
      { line := (term_run t out).line ++ [c, 32], col := (term_run t out).col + 2, esc := 0 } := by
  rw [term_run_append, term_run_append]
  have s1 : term_run (term_run t out) [c] =
      { line := (term_run t out).line ++ [c], col := (term_run t out).col + 1, esc := 0 } :=
    term_byte_write (term_run t out) c hesc (by omega) (by omega) hcol
  rw [s1]
  have s2 : term_run (Term.mk ((term_run t out).line ++ [c]) ((term_run t out).col + 1) 0) [32]
      = _ :=
    term_byte_write (Term.mk ((term_run t out).line ++ [c]) ((term_run t out).col + 1) 0) 32
      rfl (by decide) (by decide) (by simp [hcol])
  rw [s2]
  simp

/-- One iteration of the loop keeps the terminal in step with the buffer. -/
theorem get_choice_step_echo (t0 : Term) (prompt : List Int) (ch : Int) (e : Editor) (n : Nat)
    (hn : e.pos = (n : Int))
    (hT : term_run t0 e.out =
      { line := prompt ++ echo_text e.choice n, col := prompt.length + 2 * n, esc := 0 }) :
    ∃ n1 : Nat, (get_choice_step ch e).1.pos = (n1 : Int) ∧
      term_run t0 (get_choice_step ch e).1.out =
        { line := prompt ++ echo_text (get_choice_step ch e).1.choice n1,
          col := prompt.length + 2 * n1, esc := 0 } := by
  have hesc : (term_run t0 e.out).esc = 0 := by rw [hT]
  have hcol : (term_run t0 e.out).col = (term_run t0 e.out).line.length := by
    rw [hT]
    simp only [List.length_append, echo_text_length]
  unfold get_choice_step
  by_cases hv : is_valid (toChar ch) = true ∧ e.pos < (NCHARS : Int)
  · rw [if_pos hv]
    have hdig := (is_valid_iff _).mp hv.1
    have hmod : ch % 256 = toChar ch := by
      have := hdig
      unfold toChar at this ⊢
      omega
    refine ⟨n + 1, by simp only; rw [hn]; push_cast; rfl, ?_⟩
    simp only [putchar]
    have h32 : (32 : Int) % 256 = 32 := by decide
    rw [hmod, h32, term_run_echo_pair t0 e.out (toChar ch) hdig.1 hdig.2 hesc hcol, hT]
    simp only [Term.mk.injEq, and_true]
    refine ⟨?_, by omega⟩
    rw [echo_text, hn, echo_text_update _ _ _ _ (le_refl n), Function.update_same,
      List.append_assoc]
  · rw [if_neg hv]
    by_cases hnl : ch = 10 ∨ ch = 13
    · rw [if_pos hnl]
      exact ⟨n, hn, hT⟩
    · rw [if_neg hnl]
      by_cases hc : iscntrl ch = true
      · rw [if_pos hc]
        by_cases h1 : ch = 127 ∧ e.pos ≠ 0
        · rw [if_pos h1]
          obtain ⟨m, rfl⟩ : ∃ m, n = m + 1 := ⟨n - 1, by have := h1.2; omega⟩
          refine ⟨m, by simp only; rw [hn]; push_cast; ring, ?_⟩
          show term_run t0 (choice_back ((1 : Nat) : Int) e.out) = _
          rw [term_run_choice_back 1 e.out t0 hesc, hT]
          simp only [Term.mk.injEq, and_true]
          refine ⟨?_, by omega⟩
          rw [echo_text, ← List.append_assoc]
          apply List.take_left'
          rw [List.length_append, echo_text_length]
          omega
        · rw [if_neg h1]
          by_cases h2 : ch = 21 ∧ e.pos ≠ 0
          · rw [if_pos h2]
            refine ⟨0, rfl, ?_⟩
            show term_run t0 (choice_back e.pos e.out) = _
            rw [hn, term_run_choice_back n e.out t0 hesc, hT]
            simp only [Term.mk.injEq, and_true]
            refine ⟨?_, by omega⟩
            rw [echo_text, List.append_nil]
            apply List.take_left'
            omega
          · rw [if_neg h2]
            exact ⟨n, hn, hT⟩
      · rw [if_neg hc]
        exact ⟨n, hn, hT⟩

theorem feed_keys_echo (t0 : Term) (prompt : List Int) (keys : List Int) :
    ∀ (e : Editor) (n : Nat), e.pos = (n : Int) →
      term_run t0 e.out =
        { line := prompt ++ echo_text e.choice n, col := prompt.length + 2 * n, esc := 0 } →
      ∃ n1 : Nat, (feed_keys keys e).pos = (n1 : Int) ∧
        term_run t0 (feed_keys keys e).out =
          { line := prompt ++ echo_text (feed_keys keys e).choice n1,
            col := prompt.length + 2 * n1, esc := 0 } := by
  induction keys with
  | nil =>
    intro e n hn hT
    exact ⟨n, hn, hT⟩
  | cons ch rest ih =>
    intro e n hn hT
    obtain ⟨n1, h1, h2⟩ := get_choice_step_echo t0 prompt ch e n hn hT
    rw [feed_keys_cons]
    exact ih _ n1 h1 h2

/-- C19: start `get_choice` on any buffer, with the terminal showing `prompt` and the cursor
right after it. After any sequence of keystrokes run through the loop, the terminal line is
the prompt followed by the `pos` buffered symbols, each followed by one space, and nothing
else; the cursor is `2 * pos` columns past the prompt; and `pos` is not negative. -/
theorem get_choice_echo_in_step (prompt : List Int) (keys : List Int) (choice : Buf) :
    0 ≤ (feed_keys keys { choice := choice, pos := 0, out := [] }).pos ∧
    term_run { line := prompt, col := prompt.length, esc := 0 }
        (feed_keys keys { choice := choice, pos := 0, out := [] }).out =
      { line := prompt ++
          echo_text (feed_keys keys { choice := choice, pos := 0, out := [] }).choice
            (feed_keys keys { choice := choice, pos := 0, out := [] }).pos.toNat,
        col := prompt.length +
          2 * (feed_keys keys { choice := choice, pos := 0, out := [] }).pos.toNat,
        esc := 0 } := by
  obtain ⟨n1, h1, h2⟩ := feed_keys_echo { line := prompt, col := prompt.length, esc := 0 }
    prompt keys { choice := choice, pos := 0, out := [] } 0 rfl
    (by
      show ({ line := prompt, col := prompt.length, esc := 0 } : Term) = _
      simp [echo_text])
  rw [h1, Int.toNat_ofNat]
  exact ⟨Int.ofNat_nonneg n1, h2⟩

/-- An example of the echo staying in step: after the keys `1 2 DEL 3 ^U 4 5` on a prompt
of five characters the line shows the prompt and `4 5` with their spaces, and the cursor is
at column 9. -/
theorem get_choice_echo_example :
    term_run { line := [32, 32, 49, 46, 32], col := 5, esc := 0 }
        (feed_keys [49, 50, 127, 51, 21, 52, 53]
          { choice := bufOf [], pos := 0, out := [] }).out =
      { line := [32, 32, 49, 46, 32, 52, 32, 53, 32], col := 9, esc := 0 } := by
  decide

end Mind
